import Mathlib

/-!
Verification of the biosvg captcha generator.

Shallow embedding of `src/lib.rs` (the `BiosvgBuilder` composer) and
`src/model.rs` (the `Command`/`Path` geometry model) of the biosvg
repository, together with proofs settling the specification claims.

Modelling conventions:

* Rust `f64` values are modelled as exact rationals/reals (`ℚ` where the
  code is pure arithmetic so that statements stay decidable, `ℝ` where
  trigonometry is involved).  Decimal literals of the source (`0.2`,
  `1.5`, ...) are written as the exact fractions `1/5`, `3/2`, ....
* A Rust panic (out-of-bounds `unwrap`, `gen_range` on an empty range)
  is modelled by `Option.none`; normal completion by `Option.some`.
* The random generator is modelled as a pair of draw streams indexed by
  a draw counter that every sampling operation advances: `int i` is the
  raw integer entropy of draw `i` (range-sampling reduces it modulo the
  range size, so every possible value of `gen_range` is realised by some
  stream), and `real i` is the unit sample of draw `i`
  (`gen_range(a..b)` returns `a + (b - a) * real i`, which ranges over
  `[a, b)` exactly when `real i` ranges over `[0, 1)`).
-/

namespace Biosvg

/-- Rust `CommandType` of `model.rs`: a path command is either a move-to or a
line-to. -/
inductive CommandType where
| Move : CommandType
| LineTo : CommandType
deriving DecidableEq, Repr

/-- Rust `Command` of `model.rs`: one drawing instruction.  The coordinate type
is a parameter (`ℚ` or `ℝ`) standing for `f64`. -/
structure Command (α : Type) where
  x : α
  y : α
  command_type : CommandType
deriving DecidableEq, Repr

/-- Rust `Path` of `model.rs`: an ordered command list with bounding-box data
and a stroke color. -/
structure Path (α : Type) where
  commands : List (Command α)
  width : α
  height : α
  color : String
deriving DecidableEq, Repr

/-- Rust `PathError` of `model.rs`. -/
inductive PathError where
| ParseError : PathError
| RegexError : PathError
| Unknown : PathError
deriving DecidableEq, Repr

/-- Rust `Command::new`. -/
def Command.new (x y : α) (command_type : CommandType) : Command α :=
  ⟨x, y, command_type⟩

/-- Rust `Command::offset`: translate the aim point; kind unchanged. -/
def Command.offset [Add α] (c : Command α) (x y : α) : Command α :=
  ⟨c.x + x, c.y + y, c.command_type⟩

/-- Rust `Command::scale`: scale the aim point coordinatewise; kind unchanged. -/
def Command.scale [Mul α] (c : Command α) (x y : α) : Command α :=
  ⟨c.x * x, c.y * y, c.command_type⟩

/-- Rust `Command::rotate`: rotate the aim point about the origin.  Stated over
`ℝ` because the source uses `f64::cos`/`f64::sin`. -/
noncomputable def Command.rotate (c : Command ℝ) (angle : ℝ) : Command ℝ :=
  ⟨c.x * Real.cos angle - c.y * Real.sin angle,
   c.x * Real.sin angle + c.y * Real.cos angle,
   c.command_type⟩

/-- Rust `Path::scale`: scale every command and the stored bounding box. -/
def Path.scale [Mul α] (p : Path α) (x y : α) : Path α :=
  ⟨p.commands.map (fun c => c.scale x y), p.width * x, p.height * y, p.color⟩

/-- Rust `Path::rotate`: rotate every command; width/height left unchanged. -/
noncomputable def Path.rotate (p : Path ℝ) (angle : ℝ) : Path ℝ :=
  ⟨p.commands.map (fun c => c.rotate angle), p.width, p.height, p.color⟩

/-- Rust `Path::offset`: translate every command; width/height left unchanged. -/
def Path.offset [Add α] (p : Path α) (x y : α) : Path α :=
  ⟨p.commands.map (fun c => c.offset x y), p.width, p.height, p.color⟩

/-- Rust `Path::with_color`: replace the color; commands untouched. -/
def Path.with_color (p : Path α) (color : String) : Path α :=
  ⟨p.commands, p.width, p.height, color⟩

/-- C9: `scale(1,1)`, `rotate(0)` and `offset(0,0)` are identities on
commands (coordinates and kind), every transform preserves the command
kind, and `rotate θ` followed by `rotate (-θ)` restores the command.  In
this exact-real model of `f64` the identities hold exactly, hence in
particular within any floating-point tolerance. -/
theorem claim9_transform_identities (c : Command ℝ) (θ sx sy dx dy : ℝ) :
    (c.scale sx sy).command_type = c.command_type ∧
    (c.rotate θ).command_type = c.command_type ∧
    (c.offset dx dy).command_type = c.command_type ∧
    c.scale 1 1 = c ∧
    c.rotate 0 = c ∧
    c.offset 0 0 = c ∧
    (c.rotate θ).rotate (-θ) = c := by
  obtain ⟨x, y, t⟩ := c
  refine ⟨rfl, rfl, rfl, ?_, ?_, ?_, ?_⟩
  · simp [Command.scale]
  · simp [Command.rotate]
  · simp [Command.offset]
  · simp only [Command.rotate, Real.cos_neg, Real.sin_neg, Command.mk.injEq]
    have h := Real.sin_sq_add_cos_sq θ
    refine ⟨by linear_combination x * h, by linear_combination y * h, trivial⟩

/-! The glyph source parser (`Path::parse` of `model.rs`).

`Path::parse` scans its input with the fixed regular expression
`([ML])\s?(-?\d{1,}\.?\d{1,}?)\s(-?\d{1,}\.?\d{1,}?)` via
`captures_iter` (leftmost-first semantics, as in the Rust `regex`
crate) and folds the captures.  The scanner below implements exactly
that pattern, with its backtracking behaviour worked out by hand: the
optional `-`, the greedy `\d{1,}`, the greedy optional `\.` and the
lazy `\d{1,}?` interact so that

* a numeral capture in the middle of the pattern (followed by the
  mandatory `\s`) is either `D . E` with `D`, `E` nonempty digit runs
  and a whitespace right after `E`, or a digit run `D` of length ≥ 2
  with a whitespace right after it;
* the final numeral capture (at the end of the pattern) is either
  `D . d` with `D` a nonempty digit run and `d` one digit (the lazy
  tail stops after a single digit), or a digit run of length ≥ 2.

The character classes `\d`/`\s` are modelled as their ASCII parts (the
model covers ASCII glyph source text).  The pattern itself is a fixed
valid regex, so the `RegexError` branch of the source, fed by the `?`
on `Regex::new`, cannot fire.  Input text is modelled as its character
sequence (`List Char`). -/

/-- ASCII `\d`. -/
def isDigitC (c : Char) : Bool := decide ('0' ≤ c) && decide (c ≤ '9')

/-- ASCII `\s` (space, tab, LF, CR, vertical tab, form feed). -/
def isWsC (c : Char) : Bool :=
  c = ' ' || c = '\t' || c = '\n' || c = '\r' || c = Char.ofNat 11 || c = Char.ofNat 12

/-- Maximal digit-run prefix and the remaining characters. -/
def digitRun : List Char → List Char × List Char
| [] => ([], [])
| c :: r => if isDigitC c then ((digitRun r).1.cons c, (digitRun r).2) else ([], c :: r)

theorem digitRun_append (s : List Char) : (digitRun s).1 ++ (digitRun s).2 = s := by
  induction s with
  | nil => rfl
  | cons c r ih =>
    by_cases h : isDigitC c
    · simp [digitRun, h, ih]
    · simp [digitRun, h]

theorem digitRun_length (s : List Char) :
    (digitRun s).1.length + (digitRun s).2.length = s.length := by
  have h := congrArg List.length (digitRun_append s)
  simpa using h

/-- Unsigned case of the final numeral of the pattern (lazy tail at the
end of the regex): either `D . d` (`D` nonempty digits, `d` one digit),
or a digit run of length ≥ 2. -/
def matchNumEndU (s : List Char) : Option (List Char × List Char) :=
  match digitRun s with
  | ([], _) => none
  | (d0 :: ds, '.' :: c :: r3) =>
    if isDigitC c then some (d0 :: ds ++ ['.', c], r3)
    else if 2 ≤ (d0 :: ds).length then some (d0 :: ds, '.' :: c :: r3) else none
  | (d0 :: ds, rest) => if 2 ≤ (d0 :: ds).length then some (d0 :: ds, rest) else none

/-- Final numeral of the pattern, with the optional sign. -/
def matchNumEnd (s : List Char) : Option (List Char × List Char) :=
  match s with
  | '-' :: r => (matchNumEndU r).map (fun p => ('-' :: p.1, p.2))
  | r => matchNumEndU r

/-- Unsigned case of the middle numeral of the pattern, which the
mandatory `\s` must follow (the whitespace is checked, not consumed):
either `D . E` (both digit runs nonempty) or a digit run of length ≥ 2,
in both cases followed directly by a whitespace. -/
def matchNumMidU (s : List Char) : Option (List Char × List Char) :=
  match digitRun s with
  | ([], _) => none
  | (d0 :: ds, '.' :: r2) =>
    match digitRun r2 with
    | ([], _) => none
    | (e0 :: es, c :: r3) =>
      if isWsC c then some (d0 :: ds ++ '.' :: e0 :: es, c :: r3) else none
    | (_ :: _, []) => none
  | (d0 :: ds, c :: r2) =>
    if isWsC c && decide (2 ≤ (d0 :: ds).length) then some (d0 :: ds, c :: r2) else none
  | (_ :: _, []) => none

/-- Middle numeral of the pattern, with the optional sign. -/
def matchNumMid (s : List Char) : Option (List Char × List Char) :=
  match s with
  | '-' :: r => (matchNumMidU r).map (fun p => ('-' :: p.1, p.2))
  | r => matchNumMidU r

theorem matchNumEndU_rest_lt (s cap r : List Char)
    (h : matchNumEndU s = some (cap, r)) : r.length < s.length := by
  have hlen := digitRun_length s
  unfold matchNumEndU at h
  split at h
  · exact absurd h (by simp)
  · rename_i d0 ds c r3 heq
    rw [heq] at hlen
    split at h
    · cases h
      simp at hlen ⊢
      omega
    · split at h
      · cases h
        simp at hlen ⊢
        omega
      · exact absurd h (by simp)
  · rename_i d0 ds rest hnotdot heq
    rw [heq] at hlen
    split at h
    · cases h
      simp at hlen ⊢
      omega
    · exact absurd h (by simp)
theorem matchNumEnd_rest_lt (s cap r : List Char)
    (h : matchNumEnd s = some (cap, r)) : r.length < s.length := by
  unfold matchNumEnd at h
  split at h
  · rename_i rest
    rcases hu : matchNumEndU rest with _ | ⟨cap2, r2⟩ <;> rw [hu] at h
    · simp at h
    · simp at h
      obtain ⟨h1, h2⟩ := h
      subst h2
      have := matchNumEndU_rest_lt rest cap2 r2 hu
      simp only [List.length_cons]
      omega
  · exact matchNumEndU_rest_lt s cap r h

theorem matchNumMidU_rest_lt (s cap r : List Char)
    (h : matchNumMidU s = some (cap, r)) : r.length < s.length := by
  have hlen := digitRun_length s
  unfold matchNumMidU at h
  split at h
  · exact absurd h (by simp)
  · rename_i d0 ds r2 heq
    rw [heq] at hlen
    have hlen2 := digitRun_length r2
    split at h
    · exact absurd h (by simp)
    · rename_i e0 es c r3 heq2
      rw [heq2] at hlen2
      split at h
      · cases h
        simp at hlen hlen2 ⊢
        omega
      · exact absurd h (by simp)
    · exact absurd h (by simp)
  · rename_i d0 ds c r2 hnotdot heq
    rw [heq] at hlen
    split at h
    · cases h
      simp at hlen ⊢
      omega
    · exact absurd h (by simp)
  · exact absurd h (by simp)

theorem matchNumMid_rest_lt (s cap r : List Char)
    (h : matchNumMid s = some (cap, r)) : r.length < s.length := by
  unfold matchNumMid at h
  split at h
  · rename_i rest
    rcases hu : matchNumMidU rest with _ | ⟨cap2, r2⟩ <;> rw [hu] at h
    · simp at h
    · simp at h
      obtain ⟨h1, h2⟩ := h
      subst h2
      have := matchNumMidU_rest_lt rest cap2 r2 hu
      simp only [List.length_cons]
      omega
  · exact matchNumMidU_rest_lt s cap r h

/-- After the letter (and the optional whitespace): match
`(num) \s (num)` and return the capture triple and the rest. -/
def tryMatchTail (c : Char) (s : List Char) :
    Option ((Char × List Char × List Char) × List Char) :=
  match matchNumMid s with
  | none => none
  | some (n2, r2) =>
    match r2 with
    | w :: r3 =>
      if isWsC w then
        match matchNumEnd r3 with
        | none => none
        | some (n3, r4) => some ((c, n2, n3), r4)
      else none
    | [] => none

theorem tryMatchTail_rest_lt (c : Char) (s : List Char) (tok : Char × List Char × List Char)
    (r : List Char) (h : tryMatchTail c s = some (tok, r)) : r.length < s.length := by
  unfold tryMatchTail at h
  split at h
  · exact absurd h (by simp)
  · rename_i n2 r2 hmid
    split at h
    · rename_i w r3
      split at h
      · split at h
        · exact absurd h (by simp)
        · rename_i n3 r4 hend
          cases h
          have h1 := matchNumMid_rest_lt s n2 (w :: r3) hmid
          have h2 := matchNumEnd_rest_lt r3 n3 r hend
          simp at h1
          omega
      · exact absurd h (by simp)
    · exact absurd h (by simp)

/-- Attempt one leftmost-first match of the whole pattern at the head of
the input: the letter class `[ML]`, then the greedy optional `\s?`
(tried with the whitespace consumed first, then without). -/
def tryMatch : List Char → Option ((Char × List Char × List Char) × List Char)
| [] => none
| c :: r =>
  if c = 'M' || c = 'L' then
    match r with
    | w :: r2 =>
      if isWsC w then
        match tryMatchTail c r2 with
        | some res => some res
        | none => tryMatchTail c r
      else tryMatchTail c r
    | [] => none
  else none

theorem tryMatch_rest_lt (s : List Char) (tok : Char × List Char × List Char)
    (r : List Char) (h : tryMatch s = some (tok, r)) : r.length < s.length := by
  rcases s with _ | ⟨c, rest⟩
  · simp [tryMatch] at h
  · simp only [tryMatch] at h
    by_cases hml : (c = 'M' || c = 'L') = true
    · rw [if_pos hml] at h
      rcases rest with _ | ⟨w, r2⟩
      · simp at h
      · simp only at h
        by_cases hws : isWsC w = true
        · rw [if_pos hws] at h
          rcases ht : tryMatchTail c r2 with _ | ⟨tok2, r3⟩
          · rw [ht] at h
            have := tryMatchTail_rest_lt c (w :: r2) tok r h
            simp only [List.length_cons] at this ⊢
            omega
          · rw [ht] at h
            cases h
            have := tryMatchTail_rest_lt c r2 tok r ht
            simp only [List.length_cons]
            omega
        · rw [if_neg hws] at h
          have := tryMatchTail_rest_lt c (w :: r2) tok r h
          simp only [List.length_cons] at this ⊢
          omega
    · rw [if_neg hml] at h
      exact absurd h (by simp)
/-- Rust `captures_iter`: scan left to right; at each position try a match;
on success emit the capture and continue after the consumed text,
otherwise advance one character.  The fuel argument only makes the
recursion structural: `Path.parse` instantiates it with the input
length, which `scanTokens_fuel` below shows is enough (every step
consumes at least one character), so the fuel never runs out. -/
def scanTokens : Nat → List Char → List (Char × List Char × List Char)
| 0, _ => []
| _ + 1, [] => []
| fuel + 1, c :: r =>
  match tryMatch (c :: r) with
  | some (tok, rest) => tok :: scanTokens fuel rest
  | none => scanTokens fuel r

theorem scanTokens_nil (f : Nat) : scanTokens f [] = [] := by
  cases f <;> rfl

/-- Any fuel at least the input length yields the same token list: the
fuel in `scanTokens` is an artifact of the embedding, not a semantic
bound. -/
theorem scanTokens_fuel : ∀ (n : Nat) (s : List Char) (f1 f2 : Nat),
    s.length ≤ f1 → s.length ≤ f2 → s.length ≤ n → scanTokens f1 s = scanTokens f2 s := by
  intro n
  induction n with
  | zero =>
    intro s f1 f2 h1 h2 hn
    have : s = [] := List.length_eq_zero.mp (Nat.le_zero.mp hn)
    subst this
    rw [scanTokens_nil, scanTokens_nil]
  | succ n ih =>
    intro s f1 f2 h1 h2 hn
    rcases s with _ | ⟨c, r⟩
    · rw [scanTokens_nil, scanTokens_nil]
    · rcases f1 with _ | f1
      · simp at h1
      · rcases f2 with _ | f2
        · simp at h2
        · simp only [scanTokens]
          rcases ht : tryMatch (c :: r) with _ | ⟨tok, rest⟩
          · simp only [List.length_cons] at h1 h2 hn
            exact ih r f1 f2 (by omega) (by omega) (by omega)
          · have hlt := tryMatch_rest_lt (c :: r) tok rest ht
            simp only [List.length_cons] at h1 h2 hn hlt
            exact congrArg (fun l => tok :: l) (ih rest f1 f2 (by omega) (by omega) (by omega))

/-- Digit run to a natural number. -/
def digitsToNat (l : List Char) : Nat :=
  l.foldl (fun a c => a * 10 + (c.toNat - Char.toNat '0')) 0

/-- Unsigned decimal literal to an exact rational. -/
def parseUnsignedNum (s : List Char) : Option ℚ :=
  match digitRun s with
  | ([], _) => none
  | (d0 :: ds, []) => some (digitsToNat (d0 :: ds))
  | (d0 :: ds, c :: r2) =>
    if c = '.' then
      match digitRun r2 with
      | (e0 :: es, []) =>
        some ((digitsToNat (d0 :: ds) : ℚ) +
          (digitsToNat (e0 :: es) : ℚ) / (10 : ℚ) ^ (e0 :: es).length)
      | _ => none
    else none

/-- Rust `str::parse::<f64>` on the captured numerals, idealized to exact
rationals: an optional sign followed by a plain decimal literal.  (The
captures produced by the pattern above always have this shape; any
other text is rejected, as `parse::<f64>` rejects non-numeric text.) -/
def parseNum (s : List Char) : Option ℚ :=
  match s with
  | c :: r =>
    if c = '-' then (parseUnsignedNum r).map (fun q => -q) else parseUnsignedNum (c :: r)
  | [] => parseUnsignedNum []

/-- The capture-processing loop of `Path::parse`: translate the command
letter (`M`/`L`; any other letter is the source's
`_ => return Err(PathError::ParseError)` arm), parse both coordinates
(`ParseError` on failure, as in the source's `map_err`), update the
running extrema with the source's
`if x > max_x { .. } else if x < min_x { .. }` chains (both extrema
start at `0.0` in `Path::parse`), and accumulate the command. -/
def parseLoop : List (Char × List Char × List Char) → List (Command ℚ) → ℚ → ℚ → ℚ → ℚ →
    Except PathError (List (Command ℚ) × ℚ × ℚ × ℚ × ℚ)
| [], cmds, maxX, minX, maxY, minY => .ok (cmds, maxX, minX, maxY, minY)
| (letter, xs, ys) :: rest, cmds, maxX, minX, maxY, minY =>
  match (if letter = 'M' then some CommandType.Move
         else if letter = 'L' then some CommandType.LineTo else none) with
  | none => .error PathError.ParseError
  | some ct =>
    match parseNum xs with
    | none => .error PathError.ParseError
    | some x =>
      match parseNum ys with
      | none => .error PathError.ParseError
      | some y =>
        parseLoop rest (cmds ++ [Command.new x y ct])
          (if maxX < x then x else maxX)
          (if maxX < x then minX else if x < minX then x else minX)
          (if maxY < y then y else maxY)
          (if maxY < y then minY else if y < minY then y else minY)

/-- Rust `Path::parse`: scan the captures, fold them, then re-center every
command by the midpoint `(max+min)/2` of the accumulated extrema and
return the path with `width = max_x - min_x`, `height = max_y - min_y`
and the default color `"black"`.  Input text is modelled as its
character sequence. -/
def Path.parse (s : List Char) : Except PathError (Path ℚ) :=
  match parseLoop (scanTokens s.length s) [] 0 0 0 0 with
  | .error e => .error e
  | .ok (cmds, maxX, minX, maxY, minY) =>
    .ok ⟨cmds.map (fun c => ⟨c.x - (maxX + minX) / 2, c.y - (maxY + minY) / 2, c.command_type⟩),
         maxX - minX, maxY - minY, "black"⟩

example : scanTokens 15 ['M', ' ', '1', '0', ' ', '1', '0', ' ', 'L', ' ', '3', '0', ' ', '1', '0'] =
    [('M', ['1', '0'], ['1', '0']), ('L', ['3', '0'], ['1', '0'])] := by decide

example : Path.parse ['M', ' ', '1', '0', ' ', '1', '0', ' ', 'L', ' ', '3', '0', ' ', '1', '0'] =
    .ok ⟨[⟨-5, 5, CommandType.Move⟩, ⟨15, 5, CommandType.LineTo⟩], 30, 10, "black"⟩ := by
  have h1 : scanTokens (15 : Nat)
      ['M', ' ', '1', '0', ' ', '1', '0', ' ', 'L', ' ', '3', '0', ' ', '1', '0'] =
      [('M', ['1', '0'], ['1', '0']), ('L', ['3', '0'], ['1', '0'])] := by decide
  simp only [Path.parse, List.length_cons, List.length_nil]
  have c0 : Char.toNat '0' = 48 := rfl
  have c1 : Char.toNat '1' = 49 := rfl
  have c3 : Char.toNat '3' = 51 := rfl
  norm_num +decide [h1, parseLoop, parseNum, parseUnsignedNum, digitRun, isDigitC, digitsToNat,
    Command.new, c0, c1, c3]
/-! Well-formedness of scanned captures.

Every capture produced by the scanner has letter `M` or `L` and
numerals that `parse::<f64>` accepts, so the `ParseError` arms of
`Path::parse` are unreachable. -/

theorem digitRun_digits (s : List Char) : ∀ c ∈ (digitRun s).1, isDigitC c = true := by
  induction s with
  | nil => simp [digitRun]
  | cons c r ih =>
    by_cases h : isDigitC c = true
    · simp only [digitRun, h, if_pos, List.mem_cons]
      intro d hd
      rcases hd with h1 | h2
      · subst h1; exact h
      · exact ih d h2
    · simp [digitRun, h]

theorem digitRun_of_digits (D r : List Char) (hD : ∀ c ∈ D, isDigitC c = true)
    (hr : ∀ c rs, r = c :: rs → isDigitC c = false) : digitRun (D ++ r) = (D, r) := by
  induction D with
  | nil =>
    rcases r with _ | ⟨c, rs⟩
    · rfl
    · simp [digitRun, hr c rs rfl]
  | cons d D ih =>
    have hd : isDigitC d = true := hD d (by simp)
    have hD2 : ∀ c ∈ D, isDigitC c = true := fun c hc => hD c (by simp [hc])
    simp [digitRun, hd, ih hD2]

theorem parseUnsignedNum_digits (d0 : Char) (ds : List Char)
    (h : ∀ c ∈ d0 :: ds, isDigitC c = true) :
    parseUnsignedNum (d0 :: ds) = some (digitsToNat (d0 :: ds)) := by
  have := digitRun_of_digits (d0 :: ds) [] h (by intro c rs hc; cases hc)
  simp only [List.append_nil] at this
  simp [parseUnsignedNum, this]

theorem parseUnsignedNum_dot (d0 e0 : Char) (ds es : List Char)
    (hD : ∀ c ∈ d0 :: ds, isDigitC c = true) (hE : ∀ c ∈ e0 :: es, isDigitC c = true) :
    parseUnsignedNum (d0 :: ds ++ '.' :: e0 :: es) =
      some ((digitsToNat (d0 :: ds) : ℚ) +
        (digitsToNat (e0 :: es) : ℚ) / (10 : ℚ) ^ (e0 :: es).length) := by
  have h1 : digitRun ((d0 :: ds) ++ '.' :: e0 :: es) = (d0 :: ds, '.' :: e0 :: es) :=
    digitRun_of_digits (d0 :: ds) ('.' :: e0 :: es) hD
      (by intro c rs hc; cases hc; decide)
  have h2 : digitRun ((e0 :: es) ++ []) = (e0 :: es, []) :=
    digitRun_of_digits (e0 :: es) [] hE (by intro c rs hc; cases hc)
  simp only [List.append_nil] at h2
  simp only [List.cons_append] at h1
  simp [parseUnsignedNum, h1, h2]

theorem matchNumEndU_parse (s cap r : List Char) (h : matchNumEndU s = some (cap, r)) :
    ∃ d0 ds, cap = d0 :: ds ∧ isDigitC d0 = true ∧ ∃ q, parseUnsignedNum cap = some q := by
  have hdig := digitRun_digits s
  unfold matchNumEndU at h
  split at h
  · exact absurd h (by simp)
  · rename_i d0 ds c r3 heq
    rw [heq] at hdig
    simp only at hdig
    split at h
    · rename_i hc
      cases h
      refine ⟨d0, ds ++ ['.', c], rfl, hdig d0 (by simp), ?_⟩
      have := parseUnsignedNum_dot d0 c ds [] hdig (by simpa using hc)
      exact ⟨_, this⟩
    · split at h
      · cases h
        exact ⟨d0, ds, rfl, hdig d0 (by simp),
          ⟨_, parseUnsignedNum_digits d0 ds hdig⟩⟩
      · exact absurd h (by simp)
  · rename_i d0 ds rest hnotdot heq
    rw [heq] at hdig
    simp only at hdig
    split at h
    · cases h
      exact ⟨d0, ds, rfl, hdig d0 (by simp),
        ⟨_, parseUnsignedNum_digits d0 ds hdig⟩⟩
    · exact absurd h (by simp)

theorem matchNumMidU_parse (s cap r : List Char) (h : matchNumMidU s = some (cap, r)) :
    ∃ d0 ds, cap = d0 :: ds ∧ isDigitC d0 = true ∧ ∃ q, parseUnsignedNum cap = some q := by
  have hdig := digitRun_digits s
  unfold matchNumMidU at h
  split at h
  · exact absurd h (by simp)
  · rename_i d0 ds r2 heq
    rw [heq] at hdig
    simp only at hdig
    have hdig2 := digitRun_digits r2
    split at h
    · exact absurd h (by simp)
    · rename_i e0 es c r3 heq2
      rw [heq2] at hdig2
      simp only at hdig2
      split at h
      · cases h
        refine ⟨d0, ds ++ '.' :: e0 :: es, rfl, hdig d0 (by simp), ?_⟩
        exact ⟨_, parseUnsignedNum_dot d0 e0 ds es hdig hdig2⟩
      · exact absurd h (by simp)
    · exact absurd h (by simp)
  · rename_i d0 ds c r2 hnotdot heq
    rw [heq] at hdig
    simp only at hdig
    split at h
    · cases h
      exact ⟨d0, ds, rfl, hdig d0 (by simp),
        ⟨_, parseUnsignedNum_digits d0 ds hdig⟩⟩
    · exact absurd h (by simp)
  · exact absurd h (by simp)
theorem isDigitC_ne_dash (c : Char) (h : isDigitC c = true) : c ≠ '-' := by
  intro hc
  subst hc
  simp [isDigitC] at h

theorem matchNumEnd_parse (s cap r : List Char) (h : matchNumEnd s = some (cap, r)) :
    ∃ q, parseNum cap = some q := by
  unfold matchNumEnd at h
  split at h
  · rename_i rest
    rcases hu : matchNumEndU rest with _ | ⟨cap2, r2⟩ <;> rw [hu] at h
    · simp at h
    · simp at h
      obtain ⟨h1, h2⟩ := h
      subst h1
      obtain ⟨d0, ds, hcap, hd0, q, hq⟩ := matchNumEndU_parse rest cap2 r2 hu
      exact ⟨-q, by simp [parseNum, hq]⟩
  · obtain ⟨d0, ds, hcap, hd0, q, hq⟩ := matchNumEndU_parse s cap r h
    subst hcap
    exact ⟨q, by simp [parseNum, isDigitC_ne_dash d0 hd0, hq]⟩

theorem matchNumMid_parse (s cap r : List Char) (h : matchNumMid s = some (cap, r)) :
    ∃ q, parseNum cap = some q := by
  unfold matchNumMid at h
  split at h
  · rename_i rest
    rcases hu : matchNumMidU rest with _ | ⟨cap2, r2⟩ <;> rw [hu] at h
    · simp at h
    · simp at h
      obtain ⟨h1, h2⟩ := h
      subst h1
      obtain ⟨d0, ds, hcap, hd0, q, hq⟩ := matchNumMidU_parse rest cap2 r2 hu
      exact ⟨-q, by simp [parseNum, hq]⟩
  · obtain ⟨d0, ds, hcap, hd0, q, hq⟩ := matchNumMidU_parse s cap r h
    subst hcap
    exact ⟨q, by simp [parseNum, isDigitC_ne_dash d0 hd0, hq]⟩

/-- A scanned capture whose letter is recognized and whose numerals
parse: the shape every capture actually has. -/
def goodTok (t : Char × List Char × List Char) : Prop :=
  (t.1 = 'M' ∨ t.1 = 'L') ∧ (∃ q, parseNum t.2.1 = some q) ∧ ∃ q, parseNum t.2.2 = some q

theorem tryMatchTail_parse (c : Char) (s : List Char) (tok : Char × List Char × List Char)
    (r : List Char) (h : tryMatchTail c s = some (tok, r)) :
    tok.1 = c ∧ (∃ q, parseNum tok.2.1 = some q) ∧ ∃ q, parseNum tok.2.2 = some q := by
  unfold tryMatchTail at h
  split at h
  · exact absurd h (by simp)
  · rename_i n2 r2 hmid
    split at h
    · rename_i w r3
      split at h
      · split at h
        · exact absurd h (by simp)
        · rename_i n3 r4 hend
          cases h
          exact ⟨rfl, matchNumMid_parse s n2 (w :: r3) hmid, matchNumEnd_parse r3 n3 r hend⟩
      · exact absurd h (by simp)
    · exact absurd h (by simp)

theorem tryMatch_good (s : List Char) (tok : Char × List Char × List Char)
    (r : List Char) (h : tryMatch s = some (tok, r)) : goodTok tok := by
  rcases s with _ | ⟨c, rest⟩
  · simp [tryMatch] at h
  · simp only [tryMatch] at h
    by_cases hml : (c = 'M' || c = 'L') = true
    · rw [if_pos hml] at h
      have hml2 : c = 'M' ∨ c = 'L' := by
        rcases Bool.or_eq_true_iff.mp hml with h1 | h1
        · exact Or.inl (by simpa using h1)
        · exact Or.inr (by simpa using h1)
      rcases rest with _ | ⟨w, r2⟩
      · simp at h
      · simp only at h
        by_cases hws : isWsC w = true
        · rw [if_pos hws] at h
          rcases ht : tryMatchTail c r2 with _ | ⟨tok2, r3⟩
          · rw [ht] at h
            obtain ⟨he, hx, hy⟩ := tryMatchTail_parse c (w :: r2) tok r h
            exact ⟨he ▸ hml2, hx, hy⟩
          · rw [ht] at h
            cases h
            obtain ⟨he, hx, hy⟩ := tryMatchTail_parse c r2 tok r ht
            exact ⟨he ▸ hml2, hx, hy⟩
        · rw [if_neg hws] at h
          obtain ⟨he, hx, hy⟩ := tryMatchTail_parse c (w :: r2) tok r h
          exact ⟨he ▸ hml2, hx, hy⟩
    · rw [if_neg hml] at h
      exact absurd h (by simp)

theorem scanTokens_good (f : Nat) : ∀ (s : List Char) (t : Char × List Char × List Char),
    t ∈ scanTokens f s → goodTok t := by
  induction f with
  | zero => intro s t ht; simp [scanTokens] at ht
  | succ f ih =>
    intro s t ht
    rcases s with _ | ⟨c, r⟩
    · simp [scanTokens] at ht
    · simp only [scanTokens] at ht
      rcases hm : tryMatch (c :: r) with _ | ⟨tok, rest⟩ <;> rw [hm] at ht
      · exact ih r t ht
      · rcases List.mem_cons.mp ht with h1 | h2
        · subst h1
          exact tryMatch_good (c :: r) t rest hm
        · exact ih rest t h2
/-- The command a capture denotes (specification-side closed form of one
step of the parse loop). -/
def tokCmd (t : Char × List Char × List Char) : Option (Command ℚ) :=
  match (if t.1 = 'M' then some CommandType.Move
         else if t.1 = 'L' then some CommandType.LineTo else none),
        parseNum t.2.1, parseNum t.2.2 with
  | some ct, some x, some y => some (Command.new x y ct)
  | _, _, _ => none

theorem parseLoop_ok (toks : List (Char × List Char × List Char)) :
    ∀ (cmds : List (Command ℚ)) (maxX minX maxY minY : ℚ),
    (∀ t ∈ toks, goodTok t) → minX ≤ maxX → minY ≤ maxY →
    parseLoop toks cmds maxX minX maxY minY =
      .ok (cmds ++ toks.filterMap tokCmd,
        (toks.filterMap tokCmd).foldl (fun a c => max a c.x) maxX,
        (toks.filterMap tokCmd).foldl (fun a c => min a c.x) minX,
        (toks.filterMap tokCmd).foldl (fun a c => max a c.y) maxY,
        (toks.filterMap tokCmd).foldl (fun a c => min a c.y) minY) := by
  induction toks with
  | nil =>
    intro cmds mX nX mY nY hg h1 h2
    simp [parseLoop]
  | cons t rest ih =>
    intro cmds mX nX mY nY hg h1 h2
    obtain ⟨hml, ⟨x, hx⟩, ⟨y, hy⟩⟩ := hg t (by simp)
    obtain ⟨letter, xs, ys⟩ := t
    have hct : ∃ ct, (if letter = 'M' then some CommandType.Move
        else if letter = 'L' then some CommandType.LineTo else none) = some ct := by
      rcases hml with h | h <;> simp_all
    obtain ⟨ct, hcteq⟩ := hct
    simp only at hx hy
    have htok : tokCmd (letter, xs, ys) = some (Command.new x y ct) := by
      simp [tokCmd, hcteq, hx, hy]
    have hmax : ∀ a b : ℚ, (if a < b then b else a) = max a b := by
      intro a b
      rcases le_or_lt b a with h | h
      · rw [if_neg (not_lt.mpr h), max_eq_left h]
      · rw [if_pos h, max_eq_right h.le]
    have hmin : ∀ a b c : ℚ, b ≤ a →
        (if a < c then b else if c < b then c else b) = min b c := by
      intro a b c hba
      rcases lt_or_le a c with h | h
      · rw [if_pos h, min_eq_left (le_trans hba h.le)]
      · rw [if_neg (not_lt.mpr h)]
        rcases lt_or_le c b with h2 | h2
        · rw [if_pos h2, min_eq_right h2.le]
        · rw [if_neg (not_lt.mpr h2), min_eq_left h2]
    simp only [parseLoop, hcteq, hx, hy]
    rw [hmax mX x, hmin mX nX x h1, hmax mY y, hmin mY nY y h2]
    rw [ih (cmds ++ [Command.new x y ct]) (max mX x) (min nX x) (max mY y) (min nY y)
      (fun u hu => hg u (by simp [hu]))
      (le_trans (min_le_left nX x) (le_trans h1 (le_max_left mX x)))
      (le_trans (min_le_left nY y) (le_trans h2 (le_max_left mY y)))]
    simp [htok, List.filterMap_cons, Command.new]
/-- The points denoted by the scanned captures of `s`, as parsed and
before re-centering (specification-side closed form; by
`scanTokens_good` no capture is dropped). -/
def rawCommands (s : List Char) : List (Command ℚ) :=
  (scanTokens s.length s).filterMap tokCmd

/-- Maximum of the parsed x coordinates of `s` seeded with `0` — the
seed reflects `let mut max_x = 0.0` in the source. -/
def xMax0 (s : List Char) : ℚ := ((rawCommands s).map Command.x).foldl max 0

/-- Minimum of the parsed x coordinates of `s` seeded with `0`. -/
def xMin0 (s : List Char) : ℚ := ((rawCommands s).map Command.x).foldl min 0

/-- Maximum of the parsed y coordinates of `s` seeded with `0`. -/
def yMax0 (s : List Char) : ℚ := ((rawCommands s).map Command.y).foldl max 0

/-- Minimum of the parsed y coordinates of `s` seeded with `0`. -/
def yMin0 (s : List Char) : ℚ := ((rawCommands s).map Command.y).foldl min 0

/-- Closed form of `Path::parse` on any input: it always succeeds, its
extrema are the parsed-coordinate extrema seeded with `0`, every
command is re-centered by the midpoints of those extrema, and
`width`/`height` are their differences. -/
theorem parse_eq (s : List Char) :
    Path.parse s = .ok
      ⟨(rawCommands s).map (fun c =>
          ⟨c.x - (xMax0 s + xMin0 s) / 2, c.y - (yMax0 s + yMin0 s) / 2, c.command_type⟩),
        xMax0 s - xMin0 s, yMax0 s - yMin0 s, "black"⟩ := by
  have h := parseLoop_ok (scanTokens s.length s) [] 0 0 0 0
    (fun t ht => scanTokens_good s.length s t ht) le_rfl le_rfl
  simp only [Path.parse, h, List.nil_append]
  simp [rawCommands, xMax0, xMin0, yMax0, yMin0, List.foldl_map]
/-- C5 (amended): `Path::parse` accumulates the extrema of the parsed
coordinates *seeded with 0* (the running min/max start at `0.0` and the
`else if` chain never moves them past `0` from the wrong side), so what
it uses are `max(0, max of points)` and `min(0, min of points)`, not
the true extrema of the points.  It re-centers every command by the
midpoints of those seeded extrema and returns their differences as
`width`/`height`.  This agrees with the claimed behaviour only when
each axis has points on both sides of zero; see the counterexample for
an all-positive input. -/
theorem claim5_amended (s : List Char) :
    Path.parse s = .ok
      ⟨(rawCommands s).map (fun c =>
          ⟨c.x - (xMax0 s + xMin0 s) / 2, c.y - (yMax0 s + yMin0 s) / 2, c.command_type⟩),
        xMax0 s - xMin0 s, yMax0 s - yMin0 s, "black"⟩ :=
  parse_eq s

/-- C5 (counterexample): on `"M 10 20"`, whose only parsed point is
`(10, 20)` (strictly positive on both axes), the true extrema coincide
with the point, so the claim predicts `width = 10 - 10 = 0`,
`height = 20 - 20 = 0` and a command re-centered to `(0, 0)`; the code
instead keeps `min_x = min_y = 0` and returns `width = 10`,
`height = 20` and the command `(5, 10)`. -/
theorem claim5_counterexample :
    rawCommands ['M', ' ', '1', '0', ' ', '2', '0'] = [⟨10, 20, CommandType.Move⟩] ∧
    Path.parse ['M', ' ', '1', '0', ' ', '2', '0'] =
      Except.ok ⟨[⟨5, 10, CommandType.Move⟩], 10, 20, "black"⟩ ∧
    (10 : ℚ) ≠ 10 - 10 ∧ (20 : ℚ) ≠ 20 - 20 := by
  have h1 : scanTokens (7 : Nat) ['M', ' ', '1', '0', ' ', '2', '0'] =
      [('M', ['1', '0'], ['2', '0'])] := by decide
  have c0 : Char.toNat '0' = 48 := rfl
  have c1 : Char.toNat '1' = 49 := rfl
  have c2 : Char.toNat '2' = 50 := rfl
  refine ⟨?_, ?_, by norm_num, by norm_num⟩
  · simp only [rawCommands, List.length_cons, List.length_nil, h1]
    norm_num +decide [tokCmd, parseNum, parseUnsignedNum, digitRun, isDigitC, digitsToNat,
      Command.new, c0, c1, c2, List.filterMap_cons]
  · simp only [Path.parse, List.length_cons, List.length_nil]
    norm_num +decide [h1, parseLoop, parseNum, parseUnsignedNum, digitRun, isDigitC,
      digitsToNat, Command.new, c0, c1, c2]

/-- C6 (amended): `Path::parse` never returns an error on (ASCII) input:
the scanner's captures always have letter `M` or `L` and numerals that
parse, so both `ParseError` arms are dead code, and text that does not
match the pattern — in particular any token with an unrecognized
command letter — is silently skipped by `captures_iter` rather than
reported. -/
theorem claim6_amended (s : List Char) :
    (∀ e, Path.parse s ≠ Except.error e) ∧ ∃ p, Path.parse s = Except.ok p := by
  constructor
  · intro e he
    rw [parse_eq s] at he
    exact Except.noConfusion he
  · exact ⟨_, parse_eq s⟩

/-- C6 (counterexample): `"Q 10 20"` contains a token whose command
letter `Q` is not recognized, yet `Path::parse` returns `Ok` (with an
empty command list) instead of `ParseError`: the scanner simply never
matches the token, so the claimed error is never raised. -/
theorem claim6_counterexample :
    Path.parse ['Q', ' ', '1', '0', ' ', '2', '0'] =
      Except.ok ⟨[], 0, 0, "black"⟩ ∧
    Path.parse ['Q', ' ', '1', '0', ' ', '2', '0'] ≠
      Except.error PathError.ParseError := by
  have h1 : scanTokens (7 : Nat) ['Q', ' ', '1', '0', ' ', '2', '0'] = [] := by decide
  constructor
  · simp only [Path.parse, List.length_cons, List.length_nil]
    norm_num [h1, parseLoop]
  · simp only [Path.parse, List.length_cons, List.length_nil]
    norm_num [h1, parseLoop]
    intro he
    exact Except.noConfusion he
/-! The fragmentation algorithm (`Path::random_split` of `model.rs`).

The fragmentation algorithm.  The integer draw stream `gi` models the
`rng.random_range(2..=4)` draws: the limit drawn at counter `i` is
`2 + gi i % 3`, which ranges over exactly `{2, 3, 4}`. -/

/-- Holds (`true`) on line-to commands. -/
def Command.isLineTo (c : Command α) : Bool :=
  decide (c.command_type = CommandType.LineTo)

/-- The scan of `random_split`: `buf` is the working buffer (`commands`
in the source), `startCmd` the pending synthetic start command
(`start_cmd`), `limit` the current run-length limit (`break_limit`),
`acc` the emitted sub-paths (`paths`), and `k` the draw counter.  When
the buffer has reached the limit or the current command is a `Move`,
the run is closed: a triggering `LineTo` is first pushed, the run is
emitted only if it has more than one command, and a fresh limit is
drawn; otherwise the command is buffered (preceded by the synthetic
start when the buffer is empty).  The leftover buffer is flushed at the
end, again only if it has more than one command. -/
def splitLoop (w h : α) (color : String) (gi : Nat → Nat) :
    List (Command α) → List (Command α) → Command α → Nat → List (Path α) → Nat →
    List (Path α) × Nat
| [], buf, _, _, acc, k =>
  (if 1 < buf.length then acc ++ [⟨buf, w, h, color⟩] else acc, k)
| c :: rest, buf, startCmd, limit, acc, k =>
  if limit ≤ buf.length ∨ c.command_type = CommandType.Move then
    splitLoop w h color gi rest [] ⟨c.x, c.y, CommandType.Move⟩ (2 + gi k % 3)
      (if 1 < (if c.command_type = CommandType.LineTo then buf ++ [c] else buf).length then
        acc ++ [⟨if c.command_type = CommandType.LineTo then buf ++ [c] else buf, w, h, color⟩]
      else acc)
      (k + 1)
  else
    splitLoop w h color gi rest (if buf.isEmpty then [startCmd, c] else buf ++ [c])
      startCmd limit acc k

/-- Rust `Path::random_split`: reads `self.commands[0]` unconditionally (a
panic — `none` — on an empty command list), draws the first run-length
limit, and runs the scan. -/
def Path.random_split (p : Path α) (gi : Nat → Nat) (k : Nat) :
    Option (List (Path α) × Nat) :=
  match p.commands with
  | [] => none
  | c0 :: _ =>
    some (splitLoop p.width p.height p.color gi p.commands [] c0 (2 + gi k % 3) [] (k + 1))

/-- Sub-paths emitted by `random_split` have at least two commands and
inherit the source path's width, height and color. -/
def SplitGood (w h : α) (color : String) (q : Path α) : Prop :=
  2 ≤ q.commands.length ∧ q.width = w ∧ q.height = h ∧ q.color = color

theorem splitLoop_inv (w h : α) (color : String) (gi : Nat → Nat) :
    ∀ (cmds buf : List (Command α)) (startCmd : Command α) (limit : Nat)
      (acc : List (Path α)) (k : Nat),
    2 ≤ limit → (buf = [] ∨ 2 ≤ buf.length) → (∀ q ∈ acc, SplitGood w h color q) →
    (∀ q ∈ (splitLoop w h color gi cmds buf startCmd limit acc k).1, SplitGood w h color q) ∧
    ((((acc.map Path.commands).flatten ++ buf ++ cmds).filter Command.isLineTo).Sublist
      ((((splitLoop w h color gi cmds buf startCmd limit acc k).1.map Path.commands).flatten).filter
        Command.isLineTo)) := by
  intro cmds
  induction cmds with
  | nil =>
    intro buf startCmd limit acc k hlim hbuf hacc
    simp only [splitLoop]
    by_cases hb : 1 < buf.length
    · rw [if_pos hb]
      constructor
      · intro q hq
        rcases List.mem_append.mp hq with h1 | h1
        · exact hacc q h1
        · simp at h1
          subst h1
          refine ⟨?_, rfl, rfl, rfl⟩
          show 2 ≤ buf.length
          omega
      · simp [List.filter_append]
    · rw [if_neg hb]
      have hbe : buf = [] := by
        rcases hbuf with h1 | h1
        · exact h1
        · omega
      subst hbe
      exact ⟨hacc, by simp [List.filter_append]⟩
  | cons c rest ih =>
    intro buf startCmd limit acc k hlim hbuf hacc
    simp only [splitLoop]
    by_cases hcond : limit ≤ buf.length ∨ c.command_type = CommandType.Move
    · rw [if_pos hcond]
      by_cases hL : c.command_type = CommandType.LineTo
      · -- triggering LineTo: it is pushed and the run is emitted
        have hcL : Command.isLineTo c = true := by simp [Command.isLineTo, hL]
        have hblen : 2 ≤ buf.length := by
          rcases hcond with h1 | h1
          · omega
          · rw [h1] at hL
            exact absurd hL (by simp)
        have hemit : 1 < (buf ++ [c]).length := by
          simp
          omega
        rw [if_pos hL, if_pos hemit]
        have hacc2 : ∀ q ∈ acc ++ [⟨buf ++ [c], w, h, color⟩], SplitGood w h color q := by
          intro q hq
          rcases List.mem_append.mp hq with h1 | h1
          · exact hacc q h1
          · simp at h1
            subst h1
            refine ⟨?_, rfl, rfl, rfl⟩
            show 2 ≤ (buf ++ [c]).length
            simp
            omega
        obtain ⟨hg, hs⟩ := ih [] ⟨c.x, c.y, CommandType.Move⟩ (2 + gi k % 3)
          (acc ++ [⟨buf ++ [c], w, h, color⟩]) (k + 1) (by omega) (Or.inl rfl) hacc2
        refine ⟨hg, ?_⟩
        refine List.Sublist.trans ?_ hs
        simp [List.filter_append, List.filter_cons, hcL, List.append_assoc]
      · -- triggering Move: nothing is pushed
        have hMove : c.command_type = CommandType.Move := by
          cases hc : c.command_type
          · rfl
          · exact absurd hc hL
        have hcL : Command.isLineTo c = false := by simp [Command.isLineTo, hMove]
        rw [if_neg hL]
        by_cases hb : 1 < buf.length
        · rw [if_pos hb]
          have hacc2 : ∀ q ∈ acc ++ [⟨buf, w, h, color⟩], SplitGood w h color q := by
            intro q hq
            rcases List.mem_append.mp hq with h1 | h1
            · exact hacc q h1
            · simp at h1
              subst h1
              refine ⟨?_, rfl, rfl, rfl⟩
              show 2 ≤ buf.length
              omega
          obtain ⟨hg, hs⟩ := ih [] ⟨c.x, c.y, CommandType.Move⟩ (2 + gi k % 3)
            (acc ++ [⟨buf, w, h, color⟩]) (k + 1) (by omega) (Or.inl rfl) hacc2
          refine ⟨hg, ?_⟩
          refine List.Sublist.trans ?_ hs
          simp [List.filter_append, List.filter_cons, hcL, List.append_assoc]
        · rw [if_neg hb]
          have hbe : buf = [] := by
            rcases hbuf with h1 | h1
            · exact h1
            · omega
          subst hbe
          obtain ⟨hg, hs⟩ := ih [] ⟨c.x, c.y, CommandType.Move⟩ (2 + gi k % 3) acc (k + 1)
            (by omega) (Or.inl rfl) hacc
          refine ⟨hg, ?_⟩
          refine List.Sublist.trans ?_ hs
          simp [List.filter_append, List.filter_cons, hcL]
    · rw [if_neg hcond]
      push_neg at hcond
      obtain ⟨hlt, hnm⟩ := hcond
      have hL : c.command_type = CommandType.LineTo := by
        cases hc : c.command_type
        · exact absurd hc hnm
        · rfl
      have hcL : Command.isLineTo c = true := by simp [Command.isLineTo, hL]
      by_cases hbe : buf.isEmpty
      · rw [if_pos hbe]
        have hbe2 : buf = [] := by
          rcases buf with _ | _
          · rfl
          · simp at hbe
        subst hbe2
        obtain ⟨hg, hs⟩ := ih [startCmd, c] startCmd limit acc k hlim (Or.inr (by simp)) hacc
        refine ⟨hg, ?_⟩
        refine List.Sublist.trans ?_ hs
        simp only [List.filter_append, List.append_nil, List.filter_cons, List.filter_nil,
          List.append_assoc, hcL, if_true]
        refine List.Sublist.append_left ?_ _
        by_cases hsc : Command.isLineTo startCmd = true
        · simp only [hsc, if_true]
          exact List.sublist_cons_self _ _
        · simp only [hsc]
          rw [if_neg (by simp [hsc])]
          exact List.Sublist.refl _
      · rw [if_neg hbe]
        have hb2 : 2 ≤ buf.length := by
          rcases hbuf with h1 | h1
          · subst h1
            simp at hbe
          · exact h1
        obtain ⟨hg, hs⟩ := ih (buf ++ [c]) startCmd limit acc k hlim
          (Or.inr (by simp; omega)) hacc
        refine ⟨hg, ?_⟩
        refine List.Sublist.trans ?_ hs
        simp [List.filter_append, List.filter_cons, hcL, List.append_assoc]
/-- C4: on a path with at least two commands, `random_split` succeeds,
never emits a one-command sub-path (every emitted sub-path has at least
two commands), every emitted sub-path carries the source path's width,
height and color, and the original `LineTo` commands appear in their
original order within the concatenation of the emitted sub-paths (as a
sublist of its `LineTo` commands); this holds for every draw stream. -/
theorem claim4_random_split (p : Path α) (gi : Nat → Nat) (k : Nat)
    (hlen : 2 ≤ p.commands.length) :
    ∃ out k2, p.random_split gi k = some (out, k2) ∧
      (∀ q ∈ out, q.commands.length ≠ 1 ∧ q.width = p.width ∧ q.height = p.height ∧
        q.color = p.color) ∧
      ((p.commands.filter Command.isLineTo).Sublist
        ((out.map Path.commands).flatten.filter Command.isLineTo)) := by
  rcases hc : p.commands with _ | ⟨c0, cs⟩
  · rw [hc] at hlen
    simp at hlen
  · obtain ⟨hg, hs⟩ := splitLoop_inv p.width p.height p.color gi (c0 :: cs) [] c0
      (2 + gi k % 3) [] (k + 1) (by omega) (Or.inl rfl) (by simp)
    refine ⟨(splitLoop p.width p.height p.color gi (c0 :: cs) [] c0 (2 + gi k % 3) [] (k + 1)).1,
      (splitLoop p.width p.height p.color gi (c0 :: cs) [] c0 (2 + gi k % 3) [] (k + 1)).2,
      ?_, ?_, ?_⟩
    · simp [Path.random_split, hc]
    · intro q hq
      obtain ⟨h1, h2, h3, h4⟩ := hg q hq
      exact ⟨by omega, h2, h3, h4⟩
    · simpa using hs

/-- C4 witness: a concrete two-command path, split with the all-zero
draw stream. -/
theorem claim4_witness :
    2 ≤ ((⟨[⟨0, 0, CommandType.Move⟩, ⟨1, 1, CommandType.LineTo⟩], 1, 1, "c"⟩ :
        Path ℚ).commands).length ∧
    ∃ out k2,
      (⟨[⟨0, 0, CommandType.Move⟩, ⟨1, 1, CommandType.LineTo⟩], 1, 1, "c"⟩ :
        Path ℚ).random_split (fun i => i) 0 = some (out, k2) ∧
      (∀ q ∈ out, q.commands.length ≠ 1 ∧
        q.width = (⟨[⟨0, 0, CommandType.Move⟩, ⟨1, 1, CommandType.LineTo⟩], 1, 1, "c"⟩ :
          Path ℚ).width ∧
        q.height = (⟨[⟨0, 0, CommandType.Move⟩, ⟨1, 1, CommandType.LineTo⟩], 1, 1, "c"⟩ :
          Path ℚ).height ∧
        q.color = (⟨[⟨0, 0, CommandType.Move⟩, ⟨1, 1, CommandType.LineTo⟩], 1, 1, "c"⟩ :
          Path ℚ).color) ∧
      ((((⟨[⟨0, 0, CommandType.Move⟩, ⟨1, 1, CommandType.LineTo⟩], 1, 1, "c"⟩ :
          Path ℚ).commands).filter Command.isLineTo).Sublist
        ((out.map Path.commands).flatten.filter Command.isLineTo)) :=
  ⟨by simp, claim4_random_split _ (fun i => i) 0 (by simp)⟩

/-- C10: `random_split` reads `commands[0]` before its scan, so it is
defined exactly on non-empty command lists: for any path with at least
one command it completes without the out-of-bounds access, and on an
empty command list the indexing panics (modelled as `none`). -/
theorem claim10_random_split_precondition (p : Path α) (gi : Nat → Nat) (k : Nat) :
    (p.commands ≠ [] → (p.random_split gi k).isSome = true) ∧
    (p.commands = [] → p.random_split gi k = none) := by
  constructor
  · intro h
    rcases hc : p.commands with _ | ⟨c0, cs⟩
    · exact absurd hc h
    · simp [Path.random_split, hc]
  · intro h
    simp [Path.random_split, h]

/-- C10 witness: a one-command path succeeds; the empty-command path
panics. -/
theorem claim10_witness :
    ((⟨[⟨0, 0, CommandType.Move⟩], 1, 1, "c"⟩ : Path ℚ).random_split
      (fun i => i) 0).isSome = true ∧
    (⟨[], 1, 1, "c"⟩ : Path ℚ).random_split (fun i => i) 0 = none :=
  ⟨(claim10_random_split_precondition _ (fun i => i) 0).1 (by simp),
   (claim10_random_split_precondition (⟨[], 1, 1, "c"⟩ : Path ℚ) (fun i => i) 0).2 rfl⟩
/-! The composer (`BiosvgBuilder::build` of `lib.rs`).

The font resources `FONT_TABLE` and `FONT_PATHS` live in `resource.rs`,
which is not part of the sources; following the spec they are treated
as external parameters (a fixed character table and a fixed map from
characters to origin-centered glyph paths).  `build` is parameterized
by them and by the draw streams. -/

/-- The random generator: `int i` is the raw integer entropy and
`real i` the unit sample of draw number `i`. -/
structure Gen (α : Type) where
  int : Nat → Nat
  real : Nat → α

/-- Rust `Rng::gen_range(a..b)` on floats: panics (`none`) on an empty
range, otherwise returns `a + (b - a) * u` where `u` is the unit
sample — exactly the values of `[a, b)` as `u` ranges over `[0, 1)`. -/
def genRangeF [LinearOrderedField α] (a b u : α) : Option α :=
  if b ≤ a then none else some (a + (b - a) * u)

/-- Rust `SliceRandom::choose`: `None` on an empty slice, otherwise the
element at an index drawn by `gen_range(0..len)`, advancing the draw
counter. -/
def choose (l : List β) (gi : Nat → Nat) (k : Nat) : Option (β × Nat) :=
  match l with
  | [] => none
  | _ :: _ => (l[gi k % l.length]?).map (fun b => (b, k + 1))

/-- The answer-generation loop of `build`: `length` draws of
`gen_range(0..FONT_TABLE.len())` (a panic on an empty table, since the
integer range would be empty) followed by `chars().nth(index).unwrap()`
(for the modelled character-list table the index is always in range).
*Modelled from the spec:* `FONT_TABLE` of the missing `resource.rs` is
a fixed alphabet table, modelled as its character list. -/
def answerLoop (alphabet : List Char) (gi : Nat → Nat) : Nat → Nat → Option (List Char × Nat)
| 0, k => some ([], k)
| n + 1, k =>
  if alphabet.length = 0 then none
  else
    match alphabet[gi k % alphabet.length]? with
    | none => none
    | some ch => (answerLoop alphabet gi n (k + 1)).map (fun p => (ch :: p.1, p.2))

/-- The palette partition of `build`: one `gen_range(0..=1)` flip per
color — including the last — sending the color to the character bucket
on `1` and to the line bucket on `0`. -/
def splitColors (colors : List String) (gi : Nat → Nat) (k : Nat) :
    List String × List String × Nat :=
  match colors with
  | [] => ([], [], k)
  | c :: rest =>
    let r := splitColors rest gi (k + 1)
    if gi k % 2 = 1 then (c :: r.1, r.2.1, r.2.2) else (r.1, c :: r.2.1, r.2.2)

/-- The per-glyph transform (the closure body in `build`): draw the
angle in `-0.2..0.2*π` and the offset in `0.0..0.1*width` (a panic for
a glyph of non-positive width), `choose` a character color (`unwrap`:
a panic on an empty character bucket), draw both scale factors in
`0.8..1.2`, then apply `with_color`, `scale`, `rotate`, `offset` in
that order — the random offset being the *y* argument:
`offset(0.0, random_offset)`. -/
noncomputable def glyphStep (p : Path ℝ) (charColors : List String) (g : Gen ℝ) (k : Nat) :
    Option (Path ℝ × Nat) :=
  match genRangeF (-(1/5)) ((1/5) * Real.pi) (g.real k) with
  | none => none
  | some angle =>
    match genRangeF 0 ((1/10) * p.width) (g.real (k + 1)) with
    | none => none
    | some off =>
      match choose charColors g.int (k + 2) with
      | none => none
      | some (color, k3) =>
        match genRangeF (4/5) (6/5) (g.real k3) with
        | none => none
        | some sx =>
          match genRangeF (4/5) (6/5) (g.real (k3 + 1)) with
          | none => none
          | some sy =>
            some ((((p.with_color color).scale sx sy).rotate angle).offset 0 off, k3 + 2)

/-- The glyph loop of `build`: characters without a glyph in the table
are silently skipped (`FONT_PATHS.get(..).map(..)`); the others go
through `glyphStep`.  *Modelled from the spec:* `FONT_PATHS` of the
missing `resource.rs` is a fixed map from characters to origin-centered
glyph paths, modelled as a function into `Option (Path ℝ)`. -/
noncomputable def glyphLoop (table : Char → Option (Path ℝ)) (charColors : List String)
    (g : Gen ℝ) : List Char → Nat → Option (List (Path ℝ) × Nat)
| [], k => some ([], k)
| ch :: rest, k =>
  match table ch with
  | none => glyphLoop table charColors g rest k
  | some p =>
    match glyphStep p charColors g k with
    | none => none
    | some (fp, k2) => (glyphLoop table charColors g rest k2).map (fun r => (fp :: r.1, r.2))

/-- The bounding computation of `build`: sum of the transformed glyph
widths and their running maximum height (via the source's
`if path.height > height` update), both from `0.0`. -/
def measureLoop [LinearOrderedField α] (paths : List (Path α)) : α × α :=
  paths.foldl (fun wh p => (wh.1 + p.width, if wh.2 < p.height then p.height else wh.2)) (0, 0)

/-- The layout loop of `build`: offset each glyph to
`(start_point + width/2, (height*1.5)/2)`, fragment it with
`random_split` (whose integer draws advance the shared counter), append
the fragments, and advance the cursor by
`width + height*0.4/length`. -/
def layoutLoop [LinearOrderedField α] (h : α) (len : Nat) (gi : Nat → Nat) :
    List (Path α) → α → List (Path α) → Nat → Option (List (Path α) × Nat)
| [], _, acc, k => some (acc, k)
| p :: rest, start, acc, k =>
  match (p.offset (start + p.width / 2) ((h * (3/2)) / 2)).random_split gi k with
  | none => none
  | some (sub, k2) =>
    layoutLoop h len gi rest (start + p.width + h * (2/5) / (len : α)) (acc ++ sub) k2

/-- The noise loop of `build` (`for _ in 1..difficulty`, so
`difficulty - 1` iterations): start point drawn in
`0.0..width × 0.0..height`, end point a further draw in
`start..start+height` on each axis, color chosen from the line bucket
(`unwrap`: a panic on an empty bucket), and the stroke stored as a
`Move`/`LineTo` pair with `width` the image width and `height` the
noise height `height / 1.5`. -/
def noiseLoop [LinearOrderedField α] (width h : α) (lineColors : List String) (g : Gen α) :
    Nat → Nat → List (Path α) → Option (List (Path α) × Nat)
| 0, k, acc => some (acc, k)
| n + 1, k, acc =>
  match genRangeF 0 width (g.real k) with
  | none => none
  | some startX =>
    match genRangeF startX (startX + h) (g.real (k + 1)) with
    | none => none
    | some endX =>
      match genRangeF 0 h (g.real (k + 2)) with
      | none => none
      | some startY =>
        match genRangeF startY (startY + h) (g.real (k + 3)) with
        | none => none
        | some endY =>
          match choose lineColors g.int (k + 4) with
          | none => none
          | some (color, k5) =>
            noiseLoop width h lineColors g n k5
              (acc ++ [⟨[⟨startX, startY, CommandType.Move⟩, ⟨endX, endY, CommandType.LineTo⟩],
                width, h / (3/2), color⟩])

/-- One swap of two positions of a list (identity when out of range). -/
def swapAt (l : List β) (i j : Nat) : List β :=
  match l[i]?, l[j]? with
  | some a, some b => (l.set i b).set j a
  | _, _ => l

/-- Fisher–Yates scan from the top index down, as in
`SliceRandom::shuffle`: position `i+1` is swapped with a position drawn
by `gen_range(0..=i+1)`. -/
def shuffleAux (gi : Nat → Nat) : Nat → List β → Nat → List β × Nat
| 0, l, k => (l, k)
| i + 1, l, k => shuffleAux gi i (swapAt l (i + 1) (gi k % (i + 2))) (k + 1)

/-- Rust `paths.shuffle(&mut rng)`. -/
def shuffle (l : List β) (gi : Nat → Nat) (k : Nat) : List β × Nat :=
  shuffleAux gi (l.length - 1) l k

/-- Rust `BiosvgBuilder` of `lib.rs` (the builder configuration). -/
structure BiosvgBuilder where
  length : Nat
  difficulty : Nat
  colors : List String

/-- Rust `BiosvgBuilder::build`: generate the answer, partition the palette,
transform the glyphs, measure, lay out and fragment, add the noise
strokes, and shuffle the draw order.  The result is the answer
character list and the final path list in draw order; serialization of
that list into the svg root element is pure string formatting of `f64`
values and lies outside the numeric model, and the `Result` wrapper of
the source never carries an `Err` (every failure path in `build` is a
panic, modelled as `none`). -/
noncomputable def BiosvgBuilder.build (b : BiosvgBuilder) (FONT_TABLE : List Char)
    (FONT_PATHS : Char → Option (Path ℝ)) (g : Gen ℝ) :
    Option (List Char × List (Path ℝ)) :=
  match answerLoop FONT_TABLE g.int b.length 0 with
  | none => none
  | some (answer, k1) =>
    match splitColors b.colors g.int k1 with
    | (charColors, lineColors, k2) =>
      match glyphLoop FONT_PATHS charColors g answer k2 with
      | none => none
      | some (fontPaths, k3) =>
        match measureLoop fontPaths with
        | (w0, h) =>
          match layoutLoop h b.length g.int fontPaths (h * (11/20)) [] k3 with
          | none => none
          | some (paths1, k4) =>
            match noiseLoop (w0 + (3/2) * h) h lineColors g (b.difficulty - 1) k4 paths1 with
            | none => none
            | some (paths2, k5) => some (answer, (shuffle paths2 g.int k5).1)
/-- C1 (amended): the palette partition flips an unbiased coin for
*every* color — including the last — sending it to the character bucket
on `1` and to the line bucket on `0`; there is no smaller-bucket rule
for the last color, and consequently no guarantee that either bucket is
non-empty (see the counterexample). -/
theorem claim1_palette_partition (colors : List String) (gi : Nat → Nat) : ∀ k : Nat,
    splitColors colors gi k =
      (((colors.enumFrom k).filter (fun p => decide (gi p.1 % 2 = 1))).map Prod.snd,
       ((colors.enumFrom k).filter (fun p => decide (gi p.1 % 2 = 0))).map Prod.snd,
       k + colors.length) := by
  induction colors with
  | nil => intro k; simp [splitColors, List.enumFrom]
  | cons c rest ih =>
    intro k
    simp only [splitColors, ih (k + 1), List.enumFrom, List.filter_cons]
    by_cases h : gi k % 2 = 1
    · have h0 : ¬(gi k % 2 = 0) := by omega
      simp [h, h0, List.length_cons]
      omega
    · have h0 : gi k % 2 = 0 := by omega
      simp [h, h0, List.length_cons]
      omega

/-- C1 (counterexample): with a two-color palette and both coin flips
coming up `1`, both colors land in the character bucket and the line
bucket is empty — refuting that the partition always yields two
non-empty buckets (and with it the claimed smaller-bucket rule for the
last color). -/
theorem claim1_counterexample :
    splitColors ["#0078D6", "#aa3333"] (fun _ => 1) 0 =
      (["#0078D6", "#aa3333"], [], 2) := by
  rfl
/-- Full characterization of the noise loop under positive dimensions,
a non-empty line bucket and in-range unit samples. -/
theorem noiseLoop_strokes [LinearOrderedField α] (width h : α) (lineColors : List String)
    (g : Gen α) (n : Nat) :
    ∀ (k : Nat) (acc : List (Path α)), 0 < width → 0 < h → lineColors ≠ [] →
    (∀ i, 0 ≤ g.real i ∧ g.real i < 1) →
    ∃ fresh k2, noiseLoop width h lineColors g n k acc = some (acc ++ fresh, k2) ∧
      fresh.length = n ∧
      ∀ q ∈ fresh, q.width = width ∧ q.height = h / (3/2) ∧ q.color ∈ lineColors ∧
        ∃ sx sy ex ey,
          q.commands = [⟨sx, sy, CommandType.Move⟩, ⟨ex, ey, CommandType.LineTo⟩] ∧
          0 ≤ sx ∧ sx < width ∧ 0 ≤ sy ∧ sy < h ∧
          sx ≤ ex ∧ ex < sx + h ∧ sy ≤ ey ∧ ey < sy + h := by
  induction n with
  | zero =>
    intro k acc hw hh hlc hu
    exact ⟨[], k, by simp [noiseLoop], rfl, by simp⟩
  | succ n ih =>
    intro k acc hw hh hlc hu
    have hc1 : ¬(width ≤ (0:α)) := not_le.mpr hw
    have hc3 : ¬(h ≤ (0:α)) := not_le.mpr hh
    rcases hlc2 : lineColors with _ | ⟨c0, cs⟩
    · exact absurd hlc2 hlc
    · subst hlc2
      have hchoose : ∃ col, choose (c0 :: cs) g.int (k + 4) = some (col, k + 5) ∧
          col ∈ c0 :: cs := by
        simp only [choose]
        have hlt : g.int (k + 4) % (c0 :: cs).length < (c0 :: cs).length :=
          Nat.mod_lt _ (by simp)
        rcases hg : (c0 :: cs)[g.int (k + 4) % (c0 :: cs).length]? with _ | col
        · rw [List.getElem?_eq_none_iff] at hg
          omega
        · obtain ⟨hb, hcol⟩ := List.getElem?_eq_some_iff.mp hg
          exact ⟨col, by simp, hcol ▸ List.getElem_mem hb⟩
      obtain ⟨col, hch, hcolmem⟩ := hchoose
      obtain ⟨fresh, k2, heq, hlen, hprops⟩ := ih (k + 5)
        (acc ++ [⟨[⟨width * g.real k, h * g.real (k + 2), CommandType.Move⟩,
          ⟨width * g.real k + h * g.real (k + 1),
           h * g.real (k + 2) + h * g.real (k + 3), CommandType.LineTo⟩],
          width, h / (3/2), col⟩]) hw hh (by simp) hu
      have hbound : ∀ (a : α) (i : Nat), 0 < a → 0 ≤ a * g.real i ∧ a * g.real i < a := by
        intro a i ha
        obtain ⟨h0, h1⟩ := hu i
        exact ⟨mul_nonneg ha.le h0, by nlinarith⟩
      refine ⟨⟨[⟨width * g.real k, h * g.real (k + 2), CommandType.Move⟩,
          ⟨width * g.real k + h * g.real (k + 1),
           h * g.real (k + 2) + h * g.real (k + 3), CommandType.LineTo⟩],
          width, h / (3/2), col⟩ :: fresh, k2, ?_, by simp [hlen], ?_⟩
      · simp only [noiseLoop, genRangeF, hc1, hc3, if_false, add_le_iff_nonpos_right,
          add_sub_cancel_left, zero_add, sub_zero, ite_false, hch]
        rw [heq]
        simp
      · intro q hq
        rcases List.mem_cons.mp hq with h1 | h1
        · subst h1
          refine ⟨rfl, rfl, hcolmem, _, _, _, _, rfl, ?_, ?_, ?_, ?_, ?_, ?_, ?_, ?_⟩
          · exact (hbound width k hw).1
          · exact (hbound width k hw).2
          · exact (hbound h (k + 2) hh).1
          · exact (hbound h (k + 2) hh).2
          · nlinarith [(hbound h (k + 1) hh).1]
          · nlinarith [(hbound h (k + 1) hh).2]
          · nlinarith [(hbound h (k + 3) hh).1]
          · nlinarith [(hbound h (k + 3) hh).2]
        · exact hprops q h1
/-- C7 (amended): with positive image width, positive `maxHeight`, a
non-empty line bucket and in-range unit samples, the noise loop emits
exactly its requested number of strokes (`build` requests
`difficulty - 1` of them, none when `difficulty ≤ 1`); each stroke is a
two-command `Move`/`LineTo` path whose start point lies in
`[0, width) × [0, maxHeight)` (inside the image bounds, but with the
vertical coordinate confined to the lower `maxHeight` of the
`1.5 × maxHeight`-tall image), whose end point is offset from the start
by an amount in `[0, maxHeight)` on each axis, whose color comes from
the line bucket, whose width is the image width — and whose height is
`maxHeight / 1.5`, not `maxHeight`. -/
theorem claim7_noise_strokes [LinearOrderedField α] (width h : α) (lineColors : List String)
    (g : Gen α) (n : Nat) :
    ∀ (k : Nat) (acc : List (Path α)), 0 < width → 0 < h → lineColors ≠ [] →
    (∀ i, 0 ≤ g.real i ∧ g.real i < 1) →
    ∃ fresh k2, noiseLoop width h lineColors g n k acc = some (acc ++ fresh, k2) ∧
      fresh.length = n ∧
      ∀ q ∈ fresh, q.width = width ∧ q.height = h / (3/2) ∧ q.color ∈ lineColors ∧
        ∃ sx sy ex ey,
          q.commands = [⟨sx, sy, CommandType.Move⟩, ⟨ex, ey, CommandType.LineTo⟩] ∧
          0 ≤ sx ∧ sx < width ∧ 0 ≤ sy ∧ sy < h ∧
          sx ≤ ex ∧ ex < sx + h ∧ sy ≤ ey ∧ ey < sy + h :=
  noiseLoop_strokes width h lineColors g n

/-- C7 (counterexample): one noise stroke generated with image width 3
and `maxHeight = 3` has height `2 = 3 / 1.5`, not `maxHeight = 3`: the
source stores `height: height / 1.5` for noise strokes. -/
theorem claim7_counterexample :
    noiseLoop (3 : ℚ) 3 ["#0078D6"] ⟨fun _ => 0, fun _ => 0⟩ 1 0 [] =
      some ([⟨[⟨0, 0, CommandType.Move⟩, ⟨0, 0, CommandType.LineTo⟩], 3, 2, "#0078D6"⟩], 5) ∧
    (2 : ℚ) ≠ 3 := by
  constructor
  · rw [show (1 : Nat) = 0 + 1 from rfl]
    norm_num [noiseLoop, genRangeF, choose]
  · norm_num

/-- C7 witness for the amended theorem: one stroke, concrete rational
data, the constant-half unit stream. -/
theorem claim7_witness :
    (0 : ℚ) < 3 ∧ ["#0078D6"] ≠ [] ∧
    (∀ i, 0 ≤ (Gen.mk (fun _ => 0) (fun _ => (1/2 : ℚ))).real i ∧
      (Gen.mk (fun _ => 0) (fun _ => (1/2 : ℚ))).real i < 1) ∧
    ∃ fresh k2, noiseLoop (3 : ℚ) 3 ["#0078D6"] ⟨fun _ => 0, fun _ => (1/2 : ℚ)⟩ 1 0 [] =
      some ([] ++ fresh, k2) ∧
      fresh.length = 1 ∧
      ∀ q ∈ fresh, q.width = 3 ∧ q.height = (3 : ℚ) / (3/2) ∧ q.color ∈ ["#0078D6"] ∧
        ∃ sx sy ex ey,
          q.commands = [⟨sx, sy, CommandType.Move⟩, ⟨ex, ey, CommandType.LineTo⟩] ∧
          0 ≤ sx ∧ sx < 3 ∧ 0 ≤ sy ∧ sy < 3 ∧
          sx ≤ ex ∧ ex < sx + 3 ∧ sy ≤ ey ∧ ey < sy + 3 :=
  ⟨by norm_num, by simp, by intro i; norm_num,
    claim7_noise_strokes 3 3 ["#0078D6"] ⟨fun _ => 0, fun _ => (1/2 : ℚ)⟩ 1 0 []
      (by norm_num) (by norm_num) (by simp) (by intro i; norm_num)⟩
/-- The per-glyph transform as the specification words it: identical to
`glyphStep` except that the random offset is applied as a *horizontal*
(x-axis) displacement, `offset(random_offset, 0.0)`.  Stated only to be
compared with the source's `glyphStep`. -/
noncomputable def glyphStepSpec (p : Path ℝ) (charColors : List String) (g : Gen ℝ)
    (k : Nat) : Option (Path ℝ × Nat) :=
  match genRangeF (-(1/5)) ((1/5) * Real.pi) (g.real k) with
  | none => none
  | some angle =>
    match genRangeF 0 ((1/10) * p.width) (g.real (k + 1)) with
    | none => none
    | some off =>
      match choose charColors g.int (k + 2) with
      | none => none
      | some (color, k3) =>
        match genRangeF (4/5) (6/5) (g.real k3) with
        | none => none
        | some sx =>
          match genRangeF (4/5) (6/5) (g.real (k3 + 1)) with
          | none => none
          | some sy =>
            some ((((p.with_color color).scale sx sy).rotate angle).offset off 0, k3 + 2)

/-- C8 (amended): for a glyph of positive width, a non-empty character
bucket and in-range unit samples, the per-glyph transform applies, in
this order, `with_color` with a bucket color, `scale` with independent
per-axis factors in `[0.8, 1.2)`, `rotate` by an angle in
`[-0.2, 0.2π)`, then `offset` — with the random offset, bounded by 10%
of the glyph width, applied as a *vertical* (y-axis) displacement,
`offset(0.0, random_offset)`, not a horizontal one. -/
theorem claim8_glyph_transform (p : Path ℝ) (charColors : List String) (g : Gen ℝ) (k : Nat)
    (hcc : charColors ≠ []) (hw : 0 < p.width)
    (hu : ∀ i, 0 ≤ g.real i ∧ g.real i < 1) :
    ∃ angle off color sx sy,
      glyphStep p charColors g k =
        some ((((p.with_color color).scale sx sy).rotate angle).offset 0 off, k + 5) ∧
      color ∈ charColors ∧
      -(1/5) ≤ angle ∧ angle < (1/5) * Real.pi ∧
      0 ≤ off ∧ off < (1/10) * p.width ∧
      4/5 ≤ sx ∧ sx < 6/5 ∧ 4/5 ≤ sy ∧ sy < 6/5 := by
  have hpi := Real.pi_pos
  have hc1 : ¬((1/5) * Real.pi ≤ -(1/5 : ℝ)) := by nlinarith
  have hc2 : ¬((1/10) * p.width ≤ (0 : ℝ)) := by nlinarith
  have hc3 : ¬((6/5 : ℝ) ≤ 4/5) := by norm_num
  rcases hcc2 : charColors with _ | ⟨c0, cs⟩
  · exact absurd hcc2 hcc
  · subst hcc2
    have hchoose : ∃ col, choose (c0 :: cs) g.int (k + 2) = some (col, k + 3) ∧
        col ∈ c0 :: cs := by
      simp only [choose]
      have hlt : g.int (k + 2) % (c0 :: cs).length < (c0 :: cs).length :=
        Nat.mod_lt _ (by simp)
      rcases hg : (c0 :: cs)[g.int (k + 2) % (c0 :: cs).length]? with _ | col
      · rw [List.getElem?_eq_none_iff] at hg
        omega
      · obtain ⟨hb, hcol⟩ := List.getElem?_eq_some_iff.mp hg
        exact ⟨col, by simp, hcol ▸ List.getElem_mem hb⟩
    obtain ⟨col, hch, hcolmem⟩ := hchoose
    refine ⟨-(1/5) + ((1/5) * Real.pi - -(1/5)) * g.real k,
      0 + ((1/10) * p.width - 0) * g.real (k + 1), col,
      4/5 + (6/5 - 4/5) * g.real (k + 3), 4/5 + (6/5 - 4/5) * g.real (k + 4),
      ?_, hcolmem, ?_, ?_, ?_, ?_, ?_, ?_, ?_, ?_⟩
    · simp only [glyphStep, genRangeF, hc1, hc2, hc3, if_false, ite_false, hch]
    · nlinarith [(hu k).1]
    · nlinarith [(hu k).2]
    · nlinarith [(hu (k + 1)).1]
    · nlinarith [(hu (k + 1)).2]
    · nlinarith [(hu (k + 3)).1]
    · nlinarith [(hu (k + 3)).2]
    · nlinarith [(hu (k + 4)).1]
    · nlinarith [(hu (k + 4)).2]
/-- C8 (counterexample): on the one-command glyph at the origin with
width 10, unit samples all `1/2` and the zero integer stream, the
source transform moves the command to `(0, 1/2)` — the drawn offset
`1/2` is applied vertically — whereas the claimed horizontal
application (`glyphStepSpec`) would move it to `(1/2, 0)`; the two
results differ. -/
theorem claim8_counterexample :
    glyphStep ⟨[⟨0, 0, CommandType.Move⟩], 10, 10, "black"⟩ ["red"]
      ⟨fun _ => 0, fun _ => (1/2 : ℝ)⟩ 0 =
      some (⟨[⟨0, 1/2, CommandType.Move⟩], 10, 10, "red"⟩, 5) ∧
    glyphStepSpec ⟨[⟨0, 0, CommandType.Move⟩], 10, 10, "black"⟩ ["red"]
      ⟨fun _ => 0, fun _ => (1/2 : ℝ)⟩ 0 =
      some (⟨[⟨1/2, 0, CommandType.Move⟩], 10, 10, "red"⟩, 5) ∧
    glyphStep ⟨[⟨0, 0, CommandType.Move⟩], 10, 10, "black"⟩ ["red"]
      ⟨fun _ => 0, fun _ => (1/2 : ℝ)⟩ 0 ≠
    glyphStepSpec ⟨[⟨0, 0, CommandType.Move⟩], 10, 10, "black"⟩ ["red"]
      ⟨fun _ => 0, fun _ => (1/2 : ℝ)⟩ 0 := by
  have hpi := Real.pi_pos
  have hc1 : ¬((1/5) * Real.pi ≤ -(1/5 : ℝ)) := by nlinarith
  have hc2 : ¬((1/10 : ℝ) * (10 : ℝ) ≤ (0 : ℝ)) := by norm_num
  have hc3 : ¬((6/5 : ℝ) ≤ 4/5) := by norm_num
  have hch : choose ["red"] (fun _ => 0) 2 = some ("red", 3) := by
    simp [choose]
  have h1 : glyphStep ⟨[⟨0, 0, CommandType.Move⟩], 10, 10, "black"⟩ ["red"]
      ⟨fun _ => 0, fun _ => (1/2 : ℝ)⟩ 0 =
      some (⟨[⟨0, 1/2, CommandType.Move⟩], 10, 10, "red"⟩, 5) := by
    simp only [glyphStep, genRangeF, hc1, hc2, hc3, if_false, ite_false, hch]
    simp only [Path.with_color, Path.scale, Path.rotate, Path.offset, Command.scale,
      Command.rotate, Command.offset, List.map_cons, List.map_nil]
    norm_num
  have h2 : glyphStepSpec ⟨[⟨0, 0, CommandType.Move⟩], 10, 10, "black"⟩ ["red"]
      ⟨fun _ => 0, fun _ => (1/2 : ℝ)⟩ 0 =
      some (⟨[⟨1/2, 0, CommandType.Move⟩], 10, 10, "red"⟩, 5) := by
    simp only [glyphStepSpec, genRangeF, hc1, hc2, hc3, if_false, ite_false, hch]
    simp only [Path.with_color, Path.scale, Path.rotate, Path.offset, Command.scale,
      Command.rotate, Command.offset, List.map_cons, List.map_nil]
    norm_num
  refine ⟨h1, h2, ?_⟩
  rw [h1, h2]
  intro hcon
  simp only [Option.some.injEq, Prod.mk.injEq, Path.mk.injEq, List.cons.injEq,
    Command.mk.injEq] at hcon
  norm_num at hcon
/-- C8 witness for the amended theorem: concrete glyph, bucket and
streams. -/
theorem claim8_witness :
    (["red"] ≠ ([] : List String)) ∧
    (0 : ℝ) < (⟨[⟨0, 0, CommandType.Move⟩], 10, 10, "black"⟩ : Path ℝ).width ∧
    ∃ angle off color sx sy,
      glyphStep ⟨[⟨0, 0, CommandType.Move⟩], 10, 10, "black"⟩ ["red"]
        ⟨fun _ => 0, fun _ => (1/2 : ℝ)⟩ 0 =
        some (((((⟨[⟨0, 0, CommandType.Move⟩], 10, 10, "black"⟩ : Path ℝ).with_color
          color).scale sx sy).rotate angle).offset 0 off, 0 + 5) ∧
      color ∈ ["red"] ∧
      -(1/5) ≤ angle ∧ angle < (1/5) * Real.pi ∧
      0 ≤ off ∧ off < (1/10) * (⟨[⟨0, 0, CommandType.Move⟩], 10, 10, "black"⟩ : Path ℝ).width ∧
      4/5 ≤ sx ∧ sx < 6/5 ∧ 4/5 ≤ sy ∧ sy < 6/5 :=
  ⟨by simp, by norm_num,
    claim8_glyph_transform ⟨[⟨0, 0, CommandType.Move⟩], 10, 10, "black"⟩ ["red"]
      ⟨fun _ => 0, fun _ => (1/2 : ℝ)⟩ 0 (by simp) (by norm_num)
      (by intro i; norm_num)⟩
/-! Helper lemmas for `build`. -/

theorem answerLoop_ok (alphabet : List Char) (gi : Nat → Nat) (halpha : alphabet ≠ []) :
    ∀ (n k : Nat), ∃ s, answerLoop alphabet gi n k = some (s, k + n) ∧ s.length = n ∧
      ∀ c ∈ s, c ∈ alphabet := by
  intro n
  induction n with
  | zero => intro k; exact ⟨[], by simp [answerLoop], rfl, by simp⟩
  | succ n ih =>
    intro k
    have hne : ¬(alphabet.length = 0) := by
      simpa [List.length_eq_zero] using halpha
    have hlt : gi k % alphabet.length < alphabet.length :=
      Nat.mod_lt _ (by omega)
    rcases hg : alphabet[gi k % alphabet.length]? with _ | ch
    · rw [List.getElem?_eq_none_iff] at hg
      omega
    · obtain ⟨hb, hch⟩ := List.getElem?_eq_some_iff.mp hg
      obtain ⟨s, hs, hslen, hsmem⟩ := ih (k + 1)
      refine ⟨ch :: s, ?_, by simp [hslen], ?_⟩
      · simp only [answerLoop, hne, if_false, hg, hs, Option.map_some]
        simp
        omega
      · intro c hc
        rcases List.mem_cons.mp hc with h1 | h1
        · subst h1
          exact hch ▸ List.getElem_mem hb
        · exact hsmem c h1

/-- With an empty character bucket, the per-glyph transform panics (the
`unwrap` on `choose`), whatever the draws: either the offset range is
already empty, or the `choose` on the empty bucket returns `None`. -/
theorem glyphStep_none_of_empty (p : Path ℝ) (g : Gen ℝ) (k : Nat) :
    glyphStep p [] g k = none := by
  have hpi := Real.pi_pos
  have hc1 : ¬((1/5) * Real.pi ≤ -(1/5 : ℝ)) := by nlinarith
  rcases le_or_lt ((1/10) * p.width) (0 : ℝ) with h2 | h2
  · simp only [glyphStep, genRangeF, hc1, h2, if_false, ite_false, if_true, ite_true]
  · simp only [glyphStep, genRangeF, hc1, not_le.mpr h2, if_false, ite_false, choose]

/-- With a non-empty character bucket, a glyph of positive width and
height, and in-range unit samples, the per-glyph transform succeeds and
yields a path of positive width and height with as many commands as the
glyph. -/
theorem glyphStep_ok (p : Path ℝ) (c0 : String) (cs : List String) (g : Gen ℝ) (k : Nat)
    (hw : 0 < p.width) (hh : 0 < p.height)
    (hu : ∀ i, 0 ≤ g.real i ∧ g.real i < 1) :
    ∃ fp, glyphStep p (c0 :: cs) g k = some (fp, k + 5) ∧
      0 < fp.width ∧ 0 < fp.height ∧ fp.commands.length = p.commands.length := by
  have hpi := Real.pi_pos
  have hc1 : ¬((1/5) * Real.pi ≤ -(1/5 : ℝ)) := by nlinarith
  have hc2 : ¬((1/10) * p.width ≤ (0 : ℝ)) := by nlinarith
  have hc3 : ¬((6/5 : ℝ) ≤ 4/5) := by norm_num
  have hchoose : ∃ col, choose (c0 :: cs) g.int (k + 2) = some (col, k + 3) := by
    simp only [choose]
    have hlt : g.int (k + 2) % (c0 :: cs).length < (c0 :: cs).length :=
      Nat.mod_lt _ (by simp)
    rcases hg : (c0 :: cs)[g.int (k + 2) % (c0 :: cs).length]? with _ | col
    · rw [List.getElem?_eq_none_iff] at hg
      omega
    · exact ⟨col, by simp⟩
  obtain ⟨col, hch⟩ := hchoose
  have hsx : (0:ℝ) < 4/5 + (6/5 - 4/5) * g.real (k + 3) := by nlinarith [(hu (k + 3)).1]
  have hsy : (0:ℝ) < 4/5 + (6/5 - 4/5) * g.real (k + 4) := by nlinarith [(hu (k + 4)).1]
  refine ⟨(((p.with_color col).scale (4/5 + (6/5 - 4/5) * g.real (k + 3))
      (4/5 + (6/5 - 4/5) * g.real (k + 4))).rotate
      (-(1/5) + ((1/5) * Real.pi - -(1/5)) * g.real k)).offset 0
      (0 + ((1/10) * p.width - 0) * g.real (k + 1)), ?_, ?_, ?_, ?_⟩
  · simp only [glyphStep, genRangeF, hc1, hc2, hc3, if_false, ite_false, hch]
  · show (0:ℝ) < p.width * (4/5 + (6/5 - 4/5) * g.real (k + 3))
    positivity
  · show (0:ℝ) < p.height * (4/5 + (6/5 - 4/5) * g.real (k + 4))
    positivity
  · simp [Path.offset, Path.rotate, Path.scale, Path.with_color]
/-- A glyph table entry that can be rendered: positive dimensions and a
non-empty outline. -/
def GoodGlyph (p : Path ℝ) : Prop :=
  0 < p.width ∧ 0 < p.height ∧ p.commands ≠ []

theorem glyphLoop_ok (table : Char → Option (Path ℝ)) (c0 : String) (cs : List String)
    (g : Gen ℝ) (htable : ∀ ch pg, table ch = some pg → GoodGlyph pg)
    (hu : ∀ i, 0 ≤ g.real i ∧ g.real i < 1) :
    ∀ (chars : List Char) (k : Nat),
    ∃ fps k3, glyphLoop table (c0 :: cs) g chars k = some (fps, k3) ∧
      (∀ fp ∈ fps, 0 < fp.width ∧ 0 < fp.height ∧ fp.commands ≠ []) ∧
      ((∀ ch ∈ chars, (table ch).isSome) → fps.length = chars.length) := by
  intro chars
  induction chars with
  | nil => intro k; exact ⟨[], k, by simp [glyphLoop], by simp, by simp⟩
  | cons ch rest ih =>
    intro k
    rcases ht : table ch with _ | pg
    · obtain ⟨fps, k3, heq, hprops, hlen⟩ := ih k
      refine ⟨fps, k3, by simp [glyphLoop, ht, heq], hprops, ?_⟩
      intro hcov
      have := hcov ch (by simp)
      rw [ht] at this
      simp at this
    · obtain ⟨hw, hh, hcmd⟩ := htable ch pg ht
      obtain ⟨fp, hfp, hfpw, hfph, hfpc⟩ := glyphStep_ok pg c0 cs g k hw hh hu
      obtain ⟨fps, k3, heq, hprops, hlen⟩ := ih (k + 5)
      refine ⟨fp :: fps, k3, ?_, ?_, ?_⟩
      · simp [glyphLoop, ht, hfp, heq]
      · intro q hq
        rcases List.mem_cons.mp hq with h1 | h1
        · subst h1
          refine ⟨hfpw, hfph, ?_⟩
          intro hcon
          rw [hcon] at hfpc
          simp at hfpc
          exact hcmd (List.length_eq_zero.mp hfpc.symm)
        · exact hprops q h1
      · intro hcov
        simp [hlen (fun c hc => hcov c (by simp [hc]))]

/-- With an empty character bucket and at least one drawn character
having a glyph, the glyph loop panics. -/
theorem glyphLoop_none (table : Char → Option (Path ℝ)) (g : Gen ℝ) :
    ∀ (chars : List Char) (k : Nat), (∃ ch ∈ chars, (table ch).isSome) →
    glyphLoop table [] g chars k = none := by
  intro chars
  induction chars with
  | nil => intro k h; simp at h
  | cons ch rest ih =>
    intro k h
    rcases ht : table ch with _ | pg
    · simp only [glyphLoop, ht]
      obtain ⟨c, hc, hcs⟩ := h
      rcases List.mem_cons.mp hc with h1 | h1
      · subst h1
        rw [ht] at hcs
        simp at hcs
      · exact ih k ⟨c, h1, hcs⟩
    · simp only [glyphLoop, ht, glyphStep_none_of_empty]

theorem measure_foldl_mono [LinearOrderedField α] :
    ∀ (ps : List (Path α)) (wh : α × α), (∀ p ∈ ps, 0 < p.width) →
    wh.1 ≤ (ps.foldl (fun wh p =>
        (wh.1 + p.width, if wh.2 < p.height then p.height else wh.2)) wh).1 ∧
    wh.2 ≤ (ps.foldl (fun wh p =>
        (wh.1 + p.width, if wh.2 < p.height then p.height else wh.2)) wh).2 := by
  intro ps
  induction ps with
  | nil => intro wh hp; exact ⟨le_rfl, le_rfl⟩
  | cons p rest ih =>
    intro wh hp
    have hpw : 0 < p.width := (hp p (by simp))
    obtain ⟨h1, h2⟩ := ih (wh.1 + p.width, if wh.2 < p.height then p.height else wh.2)
      (fun q hq => hp q (by simp [hq]))
    constructor
    · simp only [List.foldl_cons]
      refine le_trans ?_ h1
      show wh.1 ≤ wh.1 + p.width
      nlinarith
    · simp only [List.foldl_cons]
      refine le_trans ?_ h2
      show wh.2 ≤ if wh.2 < p.height then p.height else wh.2
      by_cases hc : wh.2 < p.height
      · simp [hc]
        exact hc.le
      · simp [hc]

theorem measureLoop_pos [LinearOrderedField α] (p : Path α) (rest : List (Path α))
    (hall : ∀ q ∈ p :: rest, 0 < q.width ∧ 0 < q.height) :
    0 < (measureLoop (p :: rest)).1 ∧ 0 < (measureLoop (p :: rest)).2 := by
  obtain ⟨hw, hh⟩ := hall p (by simp)
  obtain ⟨h1, h2⟩ := measure_foldl_mono rest
    ((0:α) + p.width, if (0:α) < p.height then p.height else 0)
    (fun q hq => (hall q (by simp [hq])).1)
  constructor
  · simp only [measureLoop, List.foldl_cons]
    refine lt_of_lt_of_le ?_ h1
    simpa using hw
  · simp only [measureLoop, List.foldl_cons]
    refine lt_of_lt_of_le ?_ h2
    simp [hh]

theorem layoutLoop_ok [LinearOrderedField α] (h : α) (len : Nat) (gi : Nat → Nat) :
    ∀ (ps : List (Path α)) (start : α) (acc : List (Path α)) (k : Nat),
    (∀ p ∈ ps, p.commands ≠ []) →
    ∃ out k2, layoutLoop h len gi ps start acc k = some (out, k2) := by
  intro ps
  induction ps with
  | nil => intro start acc k hp; exact ⟨acc, k, by simp [layoutLoop]⟩
  | cons p rest ih =>
    intro start acc k hp
    have hpc : p.commands ≠ [] := hp p (by simp)
    rcases hc : (p.offset (start + p.width / 2) ((h * (3/2)) / 2)).commands with _ | ⟨c0, cs⟩
    · simp [Path.offset] at hc
      exact absurd hc hpc
    · simp only [layoutLoop, Path.random_split, hc]
      exact ih _ _ _ (fun q hq => hp q (by simp [hq]))

/-- With an empty line bucket, any positive number of noise-loop
iterations panics, whatever the draws: either one of the range draws is
already empty, or the `choose` on the empty bucket returns `None`. -/
theorem noiseLoop_none_of_empty [LinearOrderedField α] (width h : α) (g : Gen α)
    (n k : Nat) (acc : List (Path α)) :
    noiseLoop width h [] g (n + 1) k acc = none := by
  simp only [noiseLoop, genRangeF, choose]
  rcases le_or_lt width 0 with h1 | h1
  · simp [h1]
  · simp only [not_le.mpr h1, if_false, ite_false]
    rcases le_or_lt h 0 with h2 | h2
    · have : (0:α) + (width - 0) * g.real k + h ≤ 0 + (width - 0) * g.real k := by nlinarith
      simp [this, h2]
    · have hc2 : ¬((0:α) + (width - 0) * g.real k + h ≤ 0 + (width - 0) * g.real k) := by
        nlinarith
      have hc3 : ¬(h ≤ (0:α)) := not_le.mpr h2
      have hc4 : ¬((0:α) + (h - 0) * g.real (k + 2) + h ≤ 0 + (h - 0) * g.real (k + 2)) := by
        nlinarith
      simp [hc2, hc3, hc4]

theorem noiseLoop_ok [LinearOrderedField α] (width h : α) (lineColors : List String)
    (g : Gen α) (n k : Nat) (acc : List (Path α)) (hw : 0 < width) (hh : 0 < h)
    (hlc : lineColors ≠ []) (hu : ∀ i, 0 ≤ g.real i ∧ g.real i < 1) :
    ∃ out k2, noiseLoop width h lineColors g n k acc = some (out, k2) := by
  obtain ⟨fresh, k2, heq, hlen, hprops⟩ :=
    noiseLoop_strokes width h lineColors g n k acc hw hh hlc hu
  exact ⟨acc ++ fresh, k2, heq⟩
/-- C2 (amended): `build` succeeds with an answer of exactly `length`
characters — but not unconditionally: the claim fails for draws that
leave a needed color bucket empty or make a sampling range empty (see
the counterexample).  Under the hypotheses that the palette partition
of this run puts at least one color in each bucket, that every
character of the (non-empty) alphabet has a glyph with positive
dimensions and a non-empty outline, and that the unit samples are
in-range, `build` returns `some` and the answer has exactly `length`
characters, for any `length ≥ 1` and any difficulty. -/
theorem claim2_build_success (b : BiosvgBuilder) (alphabet : List Char)
    (table : Char → Option (Path ℝ)) (g : Gen ℝ)
    (hlen : 1 ≤ b.length) (halpha : alphabet ≠ [])
    (htable : ∀ ch, (table ch).isSome)
    (hgood : ∀ ch pg, table ch = some pg → GoodGlyph pg)
    (hu : ∀ i, 0 ≤ g.real i ∧ g.real i < 1)
    (hchar : (splitColors b.colors g.int b.length).1 ≠ [])
    (hline : (splitColors b.colors g.int b.length).2.1 ≠ []) :
    ∃ ans paths, b.build alphabet table g = some (ans, paths) ∧ ans.length = b.length := by
  obtain ⟨ans, hans, hanslen, hansmem⟩ := answerLoop_ok alphabet g.int halpha b.length 0
  rw [Nat.zero_add] at hans
  rcases hparts : splitColors b.colors g.int b.length with ⟨charC, lineC, k2⟩
  rw [hparts] at hchar hline
  simp only at hchar hline
  rcases charC with _ | ⟨cc0, ccs⟩
  · exact absurd rfl hchar
  rcases lineC with _ | ⟨lc0, lcs⟩
  · exact absurd rfl hline
  obtain ⟨fps, k3, hglyph, hprops, hlenf⟩ := glyphLoop_ok table cc0 ccs g hgood hu ans k2
  have hfpslen : fps.length = b.length := by
    rw [hlenf (fun ch _ => htable ch), hanslen]
  rcases hfps : fps with _ | ⟨fp0, fprest⟩
  · rw [hfps] at hfpslen
    simp at hfpslen
    omega
  rw [hfps] at hglyph hprops
  rcases hm : measureLoop (fp0 :: fprest) with ⟨w0, h⟩
  have hpos := measureLoop_pos fp0 fprest (fun q hq => ⟨(hprops q hq).1, (hprops q hq).2.1⟩)
  rw [hm] at hpos
  simp only at hpos
  obtain ⟨hw0, hh⟩ := hpos
  obtain ⟨paths1, k4, hlay⟩ := layoutLoop_ok h b.length g.int (fp0 :: fprest)
    (h * (11/20)) [] k3 (fun q hq => (hprops q hq).2.2)
  obtain ⟨paths2, k5, hnoise⟩ := noiseLoop_ok (w0 + (3/2) * h) h (lc0 :: lcs) g
    (b.difficulty - 1) k4 paths1 (by nlinarith) hh (by simp) hu
  refine ⟨ans, (shuffle paths2 g.int k5).1, ?_, hanslen⟩
  simp only [BiosvgBuilder.build, hans, hparts, hglyph, hm, hlay, hnoise]
/-- C2 (counterexample): a well-formed configuration — `length = 1`,
`difficulty = 2`, palette of two colors — on which `build` panics for a
possible draw sequence: with a glyph table that has no glyph for the
drawn character (the claim quantifies over tables of any coverage),
both coin flips send the colors to the character bucket, the glyph list
stays empty, the image dimensions are `0`, and the first noise draw
`gen_range(0.0..0.0)` is over an empty range. -/
theorem claim2_counterexample :
    BiosvgBuilder.build ⟨1, 2, ["#0078D6", "#aa3333"]⟩ ['x'] (fun _ => none)
      ⟨fun _ => 1, fun _ => (1/2 : ℝ)⟩ = none := by
  have h1 : answerLoop ['x'] (fun _ => 1) 1 0 = some (['x'], 1) := by
    simp [answerLoop]
  have h2 : splitColors ["#0078D6", "#aa3333"] (fun _ => 1) 1 =
      (["#0078D6", "#aa3333"], [], 3) := by
    simp [splitColors]
  have h3 : glyphLoop (fun _ => none) ["#0078D6", "#aa3333"]
      ⟨fun _ => 1, fun _ => (1/2 : ℝ)⟩ ['x'] 3 = some ([], 3) := by
    simp [glyphLoop]
  have h4 : layoutLoop (0:ℝ) 1 (fun _ => 1) [] ((0:ℝ) * (11/20)) [] 3 = some ([], 3) := by
    simp [layoutLoop]
  have h5 : noiseLoop ((0:ℝ) + (3/2) * 0) 0 [] ⟨fun _ => 1, fun _ => (1/2 : ℝ)⟩ 1 3 [] =
      none := by
    simp [noiseLoop, genRangeF]
  simp only [BiosvgBuilder.build, h1, h2, h3, measureLoop, List.foldl_nil, h4, h5]

/-- C2 witness for the amended theorem: `length = 1`, `difficulty = 2`,
two colors split one per bucket by the identity integer stream, a total
glyph table, and the constant-half unit stream. -/
theorem claim2_witness :
    1 ≤ (BiosvgBuilder.mk 1 2 ["#0078D6", "#aa3333"]).length ∧
    (∀ i, 0 ≤ (Gen.mk (fun i => i) (fun _ => (1/2 : ℝ))).real i ∧
      (Gen.mk (fun i => i) (fun _ => (1/2 : ℝ))).real i < 1) ∧
    ∃ ans paths,
      BiosvgBuilder.build ⟨1, 2, ["#0078D6", "#aa3333"]⟩ ['x']
        (fun _ => some ⟨[⟨-5, -5, CommandType.Move⟩, ⟨5, 5, CommandType.LineTo⟩],
          10, 10, "black"⟩)
        ⟨fun i => i, fun _ => (1/2 : ℝ)⟩ = some (ans, paths) ∧
      ans.length = (BiosvgBuilder.mk 1 2 ["#0078D6", "#aa3333"]).length :=
  ⟨by norm_num, by intro i; norm_num,
    claim2_build_success ⟨1, 2, ["#0078D6", "#aa3333"]⟩ ['x']
      (fun _ => some ⟨[⟨-5, -5, CommandType.Move⟩, ⟨5, 5, CommandType.LineTo⟩],
        10, 10, "black"⟩)
      ⟨fun i => i, fun _ => (1/2 : ℝ)⟩
      (by norm_num) (by simp) (fun ch => by simp)
      (fun ch pg hpg => by
        simp only [Option.some.injEq] at hpg
        subst hpg
        exact ⟨by norm_num, by norm_num, by simp⟩)
      (by intro i; norm_num)
      (by simp [splitColors])
      (by simp [splitColors])⟩
/-- C3 (amended): with exactly one color (and `length ≥ 1`,
`difficulty ≥ 2`, a non-empty alphabet fully covered by renderable
glyphs, in-range unit samples), `build` never returns a typed
configuration error — `PathError` has no such variant and the `Result`
of `build` never carries an `Err` — instead it always panics: the
single coin flip leaves one bucket empty, and whichever way the flip
goes, the run reaches an `unwrap`/empty-range panic on the empty
bucket (the character bucket via the glyph transform's `choose`, or
the line bucket via the noise loop's `choose`). -/
theorem claim3_single_color_panics (b : BiosvgBuilder) (color : String)
    (alphabet : List Char) (table : Char → Option (Path ℝ)) (g : Gen ℝ)
    (hcols : b.colors = [color]) (hlen : 1 ≤ b.length) (hdiff : 2 ≤ b.difficulty)
    (halpha : alphabet ≠ [])
    (htable : ∀ ch, (table ch).isSome)
    (hgood : ∀ ch pg, table ch = some pg → GoodGlyph pg)
    (hu : ∀ i, 0 ≤ g.real i ∧ g.real i < 1) :
    b.build alphabet table g = none := by
  obtain ⟨ans, hans, hanslen, hansmem⟩ := answerLoop_ok alphabet g.int halpha b.length 0
  rw [Nat.zero_add] at hans
  by_cases hf : g.int b.length % 2 = 1
  · -- the color lands in the character bucket; the line bucket is empty
    have hsplit : splitColors b.colors g.int b.length = ([color], [], b.length + 1) := by
      rw [hcols]
      simp [splitColors, hf]
    obtain ⟨fps, k3, hglyph, hprops, hlenf⟩ :=
      glyphLoop_ok table color [] g hgood hu ans (b.length + 1)
    have hfpslen : fps.length = b.length := by
      rw [hlenf (fun ch _ => htable ch), hanslen]
    rcases hfps : fps with _ | ⟨fp0, fprest⟩
    · rw [hfps] at hfpslen
      simp at hfpslen
      omega
    rw [hfps] at hglyph hprops
    rcases hm : measureLoop (fp0 :: fprest) with ⟨w0, h⟩
    obtain ⟨paths1, k4, hlay⟩ := layoutLoop_ok h b.length g.int (fp0 :: fprest)
      (h * (11/20)) [] k3 (fun q hq => (hprops q hq).2.2)
    obtain ⟨n, hn⟩ : ∃ n, b.difficulty - 1 = n + 1 := ⟨b.difficulty - 2, by omega⟩
    simp only [BiosvgBuilder.build, hans, hsplit, hglyph, hm, hlay, hn,
      noiseLoop_none_of_empty]
  · -- the color lands in the line bucket; the character bucket is empty
    have hsplit : splitColors b.colors g.int b.length = ([], [color], b.length + 1) := by
      rw [hcols]
      simp [splitColors, hf]
    have hex : ∃ ch ∈ ans, (table ch).isSome := by
      rcases hansnn : ans with _ | ⟨a0, arest⟩
      · rw [hansnn] at hanslen
        simp at hanslen
        omega
      · exact ⟨a0, by simp, htable a0⟩
    have hgl := glyphLoop_none table g ans (b.length + 1) hex
    simp only [BiosvgBuilder.build, hans, hsplit, hgl]

/-- C3 (counterexample): `length = 1`, `difficulty = 2`, exactly one
color, a total glyph table, and a draw sequence whose coin flip sends
the color to the line bucket: `build` panics (`none`, the `unwrap` on
`choose` over the empty character bucket) — it does not return a typed
configuration error; `PathError` has no configuration variant and
`build`'s only failure mode is a panic. -/
theorem claim3_counterexample :
    BiosvgBuilder.build ⟨1, 2, ["#0078D6"]⟩ ['x']
      (fun _ => some ⟨[⟨-5, -5, CommandType.Move⟩, ⟨5, 5, CommandType.LineTo⟩],
        10, 10, "black"⟩)
      ⟨fun _ => 0, fun _ => (1/2 : ℝ)⟩ = none := by
  have h1 : answerLoop ['x'] (fun _ => 0) 1 0 = some (['x'], 1) := by
    simp [answerLoop]
  have h2 : splitColors ["#0078D6"] (fun _ => 0) 1 = ([], ["#0078D6"], 2) := by
    simp [splitColors]
  have h3 : glyphLoop
      (fun _ => some ⟨[⟨-5, -5, CommandType.Move⟩, ⟨5, 5, CommandType.LineTo⟩],
        10, 10, "black"⟩) []
      ⟨fun _ => 0, fun _ => (1/2 : ℝ)⟩ ['x'] 2 = none := by
    simp [glyphLoop, glyphStep_none_of_empty]
  simp only [BiosvgBuilder.build, h1, h2, h3]

/-- C3 witness for the amended theorem: the same configuration with an
arbitrary in-range draw stream (the identity integer stream). -/
theorem claim3_witness :
    (BiosvgBuilder.mk 1 2 ["#0078D6"]).colors = ["#0078D6"] ∧
    1 ≤ (BiosvgBuilder.mk 1 2 ["#0078D6"]).length ∧
    2 ≤ (BiosvgBuilder.mk 1 2 ["#0078D6"]).difficulty ∧
    BiosvgBuilder.build ⟨1, 2, ["#0078D6"]⟩ ['x']
      (fun _ => some ⟨[⟨-5, -5, CommandType.Move⟩, ⟨5, 5, CommandType.LineTo⟩],
        10, 10, "black"⟩)
      ⟨fun i => i, fun _ => (1/2 : ℝ)⟩ = none :=
  ⟨rfl, by norm_num, by norm_num,
    claim3_single_color_panics ⟨1, 2, ["#0078D6"]⟩ "#0078D6" ['x']
      (fun _ => some ⟨[⟨-5, -5, CommandType.Move⟩, ⟨5, 5, CommandType.LineTo⟩],
        10, 10, "black"⟩)
      ⟨fun i => i, fun _ => (1/2 : ℝ)⟩ rfl (by norm_num) (by norm_num) (by simp)
      (fun ch => by simp)
      (fun ch pg hpg => by
        simp only [Option.some.injEq] at hpg
        subst hpg
        exact ⟨by norm_num, by norm_num, by simp⟩)
      (by intro i; norm_num)⟩
